import Mathlib

/-!
Verification of the grouping and order-statistics engine
(`group_labels`, `groupsort_indexer`, `group_add` / `group_mean` /
`group_var`, `duplicated` from the groupby module, and `_check_minp`,
`roll_median`, the hash-table accessors and `factorize` from
`sandbox.pyx`) against its natural-language specification.

Modelling conventions:
* a Python/NumPy `float64` value is modelled as `Option ℚ`, with `none`
  standing for NaN (the unique value for which `val == val` is false);
* an arbitrary Python object key is modelled as `PyObj α := Option α`
  where `none` stands for a missing (self-unequal, NaN-like) object and
  `some a` for an ordinary object compared by value equality;
* NumPy arrays are modelled as Lean lists; in-place writes become
  `List.set` and reads become `List.getD` (callers of the verified
  routines respect the bounds hypotheses carried by the theorems);
* machine integers (`int32_t`, `Py_ssize_t`) are modelled as `Int`
  (no routine here can overflow 32 bits for inputs of interest, and the
  theorems quantify over abstract lengths);
* a raised Python exception is modelled with `Except String`.
-/

set_option allowUnsafeReducibility true
attribute [local semireducible] Rat.add Rat.mul Rat.inv Rat.sub

deriving instance DecidableEq for Except

namespace PandasSandbox

/-- A Python object that may be "missing": `none` models a NaN-like
object which compares unequal to itself; `some a` models an ordinary
hashable object compared by value equality. -/
abbrev PyObj (α : Type) := Option α

/-- Python `==` on modelled objects: a missing (NaN-like) object is
unequal to everything, itself included. -/
def pyEq {α : Type} [DecidableEq α] : PyObj α → PyObj α → Bool
  | some a, some b => a = b
  | _, _ => false

/-- `val != val`, the missingness test used throughout the source. -/
def isMissing {α : Type} [DecidableEq α] (v : PyObj α) : Bool :=
  !(pyEq v v)

@[simp] theorem isMissing_none {α : Type} [DecidableEq α] :
    isMissing (none : PyObj α) = true := rfl

@[simp] theorem isMissing_some {α : Type} [DecidableEq α] (a : α) :
    isMissing (some a : PyObj α) = false := by
  simp [isMissing, pyEq]

theorem isMissing_iff_none {α : Type} [DecidableEq α] (v : PyObj α) :
    isMissing v = true ↔ v = none := by
  cases v <;> simp

/-! ### `duplicated` (groupby module)

```
def duplicated(list values, take_last=False):
    n = len(values)
    result = np.zeros(n, dtype=np.uint8)
    if take_last:
        for i from n > i >= 0:
            row = values[i]
            if row in seen: result[i] = 1
            else: seen[row] = None; result[i] = 0
    else:
        for i from 0 <= i < n:
            ... same body ...
    return result.view(np.bool_)
```

The `seen` dict is modelled as the list of keys inserted so far;
membership is value equality. -/

/-- One direction of the `duplicated` scan: process `values` in order,
carrying the set of keys already seen. -/
def dupScan {α : Type} [DecidableEq α] (seen : List α) :
    List α → List Bool
  | [] => []
  | row :: rest =>
      if row ∈ seen then
        true :: dupScan seen rest
      else
        false :: dupScan (seen ++ [row]) rest

/-- `duplicated` from the groupby module: forward scan when
`take_last = false`, backward scan (loop `for i from n > i >= 0`) when
`take_last = true`. -/
def duplicated {α : Type} [DecidableEq α] (values : List α)
    (take_last : Bool) : List Bool :=
  if take_last then (dupScan [] values.reverse).reverse
  else dupScan [] values

@[simp] theorem dupScan_length {α : Type} [DecidableEq α]
    (seen : List α) (values : List α) :
    (dupScan seen values).length = values.length := by
  induction values generalizing seen with
  | nil => rfl
  | cons v rest ih =>
      by_cases h : v ∈ seen <;> simp [dupScan, h, ih]

@[simp] theorem duplicated_length {α : Type} [DecidableEq α]
    (values : List α) (tl : Bool) :
    (duplicated values tl).length = values.length := by
  cases tl <;> simp [duplicated]

/-- Pointwise characterisation of the scan output: position `i` is
marked exactly when its value was in the starting `seen` set or occurs
earlier in the scanned list. -/
theorem dupScan_getD {α : Type} [DecidableEq α]
    (seen : List α) (values : List α) (i : ℕ) (hi : i < values.length) :
    ((dupScan seen values).getD i false = true ↔
      (values[i] ∈ seen ∨ values[i] ∈ values.take i)) := by
  induction values generalizing seen i with
  | nil => simp at hi
  | cons v rest ih =>
      cases i with
      | zero =>
          by_cases h : v ∈ seen <;> simp [dupScan, h]
      | succ j =>
          have hj : j < rest.length := by simpa using hi
          by_cases h : v ∈ seen
          · simp only [dupScan, if_pos h, List.getD_cons_succ, List.take_succ_cons,
              List.mem_cons, List.getElem_cons_succ]
            rw [ih seen j hj]
            constructor
            · tauto
            · rintro (hs | hv | ht)
              · exact Or.inl hs
              · exact Or.inl (hv ▸ h)
              · exact Or.inr ht
          · simp only [dupScan, if_neg h, List.getD_cons_succ, List.take_succ_cons,
              List.mem_cons, List.getElem_cons_succ]
            rw [ih (seen ++ [v]) j hj]
            simp only [List.mem_append, List.mem_singleton]
            tauto

/-- `indexOf` is minimal: no position before it holds the value. -/
theorem indexOf_le_of_getElem {α : Type} [DecidableEq α]
    {l : List α} {j : ℕ} (hj : j < l.length) {a : α} (h : l[j] = a) :
    l.indexOf a ≤ j := by
  induction l generalizing j with
  | nil => simp at hj
  | cons x xs ih =>
      cases j with
      | zero =>
          simp only [List.getElem_cons_zero] at h
          subst h
          simp [List.indexOf_cons_self]
      | succ k =>
          have hk : k < xs.length := by simpa using hj
          simp only [List.getElem_cons_succ] at h
          by_cases hx : x = a
          · subst hx
            simp [List.indexOf_cons_self]
          · rw [List.indexOf_cons_ne _ hx]
            exact Nat.succ_le_succ (ih hk h)

/-- Forward (`take_last = False`) characterisation: a position is marked
duplicated exactly when its value occurs strictly earlier. -/
theorem duplicated_false_getD {α : Type} [DecidableEq α]
    (values : List α) (i : ℕ) (hi : i < values.length) :
    ((duplicated values false).getD i false = true ↔
      ∃ j, ∃ hj : j < values.length, j < i ∧ values[j] = values[i]) := by
  rw [show duplicated values false = dupScan [] values from rfl,
    dupScan_getD [] values i hi]
  simp only [List.not_mem_nil, false_or]
  rw [List.mem_take_iff_getElem]
  constructor
  · rintro ⟨m, hm, h⟩
    exact ⟨m, Nat.lt_of_lt_of_le (Nat.lt_min.mp hm).1 (Nat.le_of_lt hi),
      (Nat.lt_min.mp hm).1, h⟩
  · rintro ⟨j, hj, hji, h⟩
    exact ⟨j, Nat.lt_min.mpr ⟨hji, hj⟩, h⟩

/-- Reading a reversed list with `getD`, for in-range indices. -/
theorem getD_reverse {β : Type} (l : List β) (i : ℕ) (hi : i < l.length)
    (d : β) : l.reverse.getD i d = l.getD (l.length - 1 - i) d := by
  have h1 : i < l.reverse.length := by simpa using hi
  have h2 : l.length - 1 - i < l.length := by omega
  rw [List.getD_eq_getElem _ _ h1, List.getD_eq_getElem _ _ h2,
    List.getElem_reverse]

/-- Reading a reversed list with `getElem`, phrased from the original
list's side. -/
theorem getElem_of_reverse {β : Type} (l : List β) (j : ℕ)
    (hj : j < l.length) (h : l.length - 1 - j < l.reverse.length) :
    l.reverse[l.length - 1 - j] = l[j] := by
  rw [List.getElem_reverse]
  congr 1
  omega

/-- Backward (`take_last = True`) characterisation: a position is marked
duplicated exactly when its value occurs strictly later. -/
theorem duplicated_true_getD {α : Type} [DecidableEq α]
    (values : List α) (i : ℕ) (hi : i < values.length) :
    ((duplicated values true).getD i false = true ↔
      ∃ j, ∃ hj : j < values.length, i < j ∧ values[j] = values[i]) := by
  have hlen : (dupScan [] values.reverse).length = values.length := by simp
  have hi' : values.length - 1 - i < values.reverse.length := by
    simp only [List.length_reverse]
    omega
  have hkey : (duplicated values true).getD i false =
      (dupScan [] values.reverse).getD (values.length - 1 - i) false := by
    show ((dupScan [] values.reverse).reverse).getD i false = _
    rw [getD_reverse _ i (by simpa using hi), hlen]
  rw [hkey, dupScan_getD [] values.reverse _ hi']
  simp only [List.not_mem_nil, false_or]
  rw [List.mem_take_iff_getElem]
  have hrv : values.reverse[values.length - 1 - i] = values[i] :=
    getElem_of_reverse values i hi hi'
  constructor
  · rintro ⟨m, hm, h⟩
    have hm1 : m < values.length - 1 - i := (Nat.lt_min.mp hm).1
    have hm2 : m < values.length := by
      have := (Nat.lt_min.mp hm).2
      simpa using this
    have hjlt : values.length - 1 - m < values.length := by omega
    refine ⟨values.length - 1 - m, hjlt, by omega, ?_⟩
    rw [hrv] at h
    rw [← h]
    have hmr : m < values.reverse.length := by
      simpa using hm2
    have : values.reverse[m] =
        values[values.length - 1 - m] := List.getElem_reverse ..
    rw [this]
  · rintro ⟨j, hj, hij, h⟩
    have hmr : values.length - 1 - j < values.reverse.length := by
      simp only [List.length_reverse]
      omega
    refine ⟨values.length - 1 - j, ?_, ?_⟩
    · simp only [List.length_reverse]
      omega
    · rw [hrv, getElem_of_reverse values j hj hmr]
      exact h

/-- In forward mode the unique unmarked occurrence of a value is its
first occurrence. -/
theorem dup_unique_forward {α : Type} [DecidableEq α]
    (values : List α) (a : α) (ha : a ∈ values) :
    ∃! k : ℕ, values[k]? = some a ∧
      (duplicated values false).getD k false = false := by
  have hk0 : values.indexOf a < values.length := List.indexOf_lt_length.mpr ha
  have hget : values[values.indexOf a] = a := List.getElem_indexOf hk0
  refine ⟨values.indexOf a, ⟨?_, ?_⟩, ?_⟩
  · rw [List.getElem?_eq_getElem hk0, hget]
  · rw [Bool.eq_false_iff]
    intro htrue
    obtain ⟨j, hj, hjlt, hje⟩ :=
      (duplicated_false_getD values _ hk0).mp htrue
    rw [hget] at hje
    exact absurd (indexOf_le_of_getElem hj hje) (by omega)
  · rintro k ⟨hk, hfalse⟩
    have hklen : k < values.length := by
      by_contra hge
      rw [List.getElem?_eq_none (by omega)] at hk
      exact Option.noConfusion hk
    have hka : values[k] = a := by
      rw [List.getElem?_eq_getElem hklen] at hk
      exact Option.some.inj hk
    have hle : values.indexOf a ≤ k := indexOf_le_of_getElem hklen hka
    rcases Nat.eq_or_lt_of_le hle with heq | hlt
    · omega
    · exfalso
      rw [Bool.eq_false_iff] at hfalse
      exact hfalse ((duplicated_false_getD values k hklen).mpr
        ⟨values.indexOf a, hk0, hlt, by rw [hget, hka]⟩)

/-- In backward mode the unique unmarked occurrence of a value is its
last occurrence. -/
theorem dup_unique_backward {α : Type} [DecidableEq α]
    (values : List α) (a : α) (ha : a ∈ values) :
    ∃! k : ℕ, values[k]? = some a ∧
      (duplicated values true).getD k false = false := by
  have har : a ∈ values.reverse := by simpa using ha
  have hm : values.reverse.indexOf a < values.reverse.length :=
    List.indexOf_lt_length.mpr har
  have hmlen : values.reverse.indexOf a < values.length := by
    simpa using hm
  set m := values.reverse.indexOf a with hmdef
  have hgetr : values.reverse[m] = a := List.getElem_indexOf hm
  have hk1 : values.length - 1 - m < values.length := by omega
  have hget : values[values.length - 1 - m] = a := by
    rw [← hgetr, List.getElem_reverse]
  -- maximality of the chosen position
  have hmax : ∀ j, ∀ hj : j < values.length, values[j] = a →
      j ≤ values.length - 1 - m := by
    intro j hj hja
    by_contra hgt
    have hrevj : values.length - 1 - j < values.reverse.length := by
      simp only [List.length_reverse]
      omega
    have : values.reverse[values.length - 1 - j] = a := by
      rw [getElem_of_reverse values j hj hrevj]
      exact hja
    have := indexOf_le_of_getElem hrevj this
    omega
  refine ⟨values.length - 1 - m, ⟨?_, ?_⟩, ?_⟩
  · rw [List.getElem?_eq_getElem hk1, hget]
  · rw [Bool.eq_false_iff]
    intro htrue
    obtain ⟨j, hj, hjgt, hje⟩ :=
      (duplicated_true_getD values _ hk1).mp htrue
    rw [hget] at hje
    exact absurd (hmax j hj hje) (by omega)
  · rintro k ⟨hk, hfalse⟩
    have hklen : k < values.length := by
      by_contra hge
      rw [List.getElem?_eq_none (by omega)] at hk
      exact Option.noConfusion hk
    have hka : values[k] = a := by
      rw [List.getElem?_eq_getElem hklen] at hk
      exact Option.some.inj hk
    have hle : k ≤ values.length - 1 - m := hmax k hklen hka
    rcases Nat.eq_or_lt_of_le hle with heq | hlt
    · exact heq
    · exfalso
      rw [Bool.eq_false_iff] at hfalse
      exact hfalse ((duplicated_true_getD values k hklen).mpr
        ⟨values.length - 1 - m, hk1, hlt, by rw [hget, hka]⟩)

/-- C10: `duplicated` with `take_last=False` marks position `i` exactly
when `values[i]` equals `values[j]` for some `j < i`; with
`take_last=True`, exactly when it equals `values[j]` for some `j > i`;
in both modes exactly one occurrence of each distinct value is left
unmarked (`False`). -/
theorem claim_C10 {α : Type} [DecidableEq α] (values : List α) :
    (∀ i, ∀ hi : i < values.length,
      ((duplicated values false).getD i false = true ↔
        ∃ j, ∃ hj : j < values.length, j < i ∧ values[j] = values[i]) ∧
      ((duplicated values true).getD i false = true ↔
        ∃ j, ∃ hj : j < values.length, i < j ∧ values[j] = values[i])) ∧
    (∀ tl : Bool, ∀ a ∈ values,
      ∃! k : ℕ, values[k]? = some a ∧
        (duplicated values tl).getD k false = false) := by
  refine ⟨fun i hi => ⟨duplicated_false_getD values i hi,
    duplicated_true_getD values i hi⟩, fun tl a ha => ?_⟩
  cases tl
  · exact dup_unique_forward values a ha
  · exact dup_unique_backward values a ha

/-- Witness for C10 at a concrete input: `[5, 7, 5]`. -/
theorem claim_C10_witness :
    (∃ j, ∃ hj : j < ([5, 7, 5] : List ℕ).length, j < 2 ∧
      ([5, 7, 5] : List ℕ)[j] = ([5, 7, 5] : List ℕ)[2]) ∧
    (∃! k : ℕ, ([5, 7, 5] : List ℕ)[k]? = some 5 ∧
      (duplicated ([5, 7, 5] : List ℕ) true).getD k false = false) :=
  ⟨((claim_C10 ([5, 7, 5] : List ℕ)).1 2 (by decide)).1.mp (by decide),
    (claim_C10 ([5, 7, 5] : List ℕ)).2 true 5 (by decide)⟩

/-! ### Rolling median (`sandbox.pyx`)

`_check_minp` and `roll_median` are embedded from the source.  The
`skiplist_*` primitives are declared via `from skiplist cimport *` and
their C implementation is not part of the excerpt, so they are modelled
from the spec (§4.5): the structure behaves as a sorted multiset of
`double` values supporting insert, delete-of-first-equal and zero-based
rank selection. -/

/-- A `float64` value: `none` models NaN (`val != val`), `some q` an
ordinary value. -/
abbrev F := Option ℚ

/-- Modelled from the spec: `skiplist_insert` of the order-statistic
skip list, whose C source is not in the excerpt.  The stored values form
a sorted multiset; a duplicate lands after the existing equal values
(§4.5: advance while the next value is `≤` target). -/
def skiplist_insert : List ℚ → ℚ → List ℚ
  | [], v => [v]
  | x :: xs, v => if x ≤ v then x :: skiplist_insert xs v else v :: x :: xs

/-- Modelled from the spec: `skiplist_remove`; deletes the first
traversal-order occurrence of the value and is a silent no-op when the
value is absent (§4.5). -/
def skiplist_remove : List ℚ → ℚ → List ℚ
  | [], _ => []
  | x :: xs, v => if x = v then xs else x :: skiplist_remove xs v

/-- Modelled from the spec: `skiplist_get`, the zero-based rank query
(§4.5).  `roll_median` ignores the out-of-range flag, so out of range we
return 0, a value the verified call sites never produce. -/
def skiplist_get (sl : List ℚ) (k : Int) : ℚ :=
  sl.getD k.toNat 0

/-- `_check_minp` from `sandbox.pyx`:
```
def _check_minp(minp, N):
    if minp > N: minp = N + 1
    elif minp == 0: minp = 1
    elif minp < 0: raise ValueError('min_periods must be >= 0')
    return minp
```
-/
def _check_minp (minp : Int) (N : Int) : Except String Int :=
  if minp > N then Except.ok (N + 1)
  else if minp = 0 then Except.ok 1
  else if minp < 0 then Except.error "min_periods must be >= 0"
  else Except.ok minp

/-- State carried through `roll_median`'s loops: the live
non-missing-observation counter, the skip list contents and the output
produced so far. -/
structure RMState where
  nobs : Int
  sl : List ℚ
  out : List F
  deriving DecidableEq, Repr

/-- Body of `roll_median`'s first loop (`for i from 0 <= i < minp - 1`):
insert a non-NaN value, count it, and emit NaN. -/
def rmStep1 (st : RMState) (v : F) : RMState :=
  match v with
  | some x =>
      { nobs := st.nobs + 1, sl := skiplist_insert st.sl x,
        out := st.out ++ [none] }
  | none => { st with out := st.out ++ [none] }

/-- The median emitted by `roll_median` when enough observations are
live: one `skiplist_get` at `nobs / 2` for odd `nobs`, the average of
ranks `nobs / 2` and `nobs / 2 - 1` for even `nobs`. -/
def rmMedian (sl : List ℚ) (nobs : Int) : ℚ :=
  let midpoint : Int := nobs / 2
  if nobs % 2 ≠ 0 then skiplist_get sl midpoint
  else (skiplist_get sl midpoint + skiplist_get sl (midpoint - 1)) / 2

/-- Body of `roll_median`'s second loop
(`for i from minp - 1 <= i < N`): drop the value leaving the window when
`i > win - 1` and it was non-NaN, insert the incoming non-NaN value, and
emit the median when at least `minp` observations are live. -/
def rmStep2 (arg : List F) (win : Int) (minp : Int) (st : RMState)
    (i : ℕ) : RMState :=
  let removed : Int × List ℚ :=
    if (i : Int) > win - 1 then
      match arg.getD ((i : Int) - win).toNat none with
      | some prev => (st.nobs - 1, skiplist_remove st.sl prev)
      | none => (st.nobs, st.sl)
    else (st.nobs, st.sl)
  let inserted : Int × List ℚ :=
    match arg.getD i none with
    | some x => (removed.1 + 1, skiplist_insert removed.2 x)
    | none => removed
  let res : F :=
    if inserted.1 ≥ minp then some (rmMedian inserted.2 inserted.1)
    else none
  { nobs := inserted.1, sl := inserted.2, out := st.out ++ [res] }

/-- `roll_median` from `sandbox.pyx`: clamp `minp` against the input
length via `_check_minp`, run the warm-up loop over the first
`minp - 1` positions (insert only, emit NaN), then the main loop over
the remaining positions. -/
def roll_median (arg : List F) (win : Int) (minp : Int) :
    Except String (List F) := do
  let N := arg.length
  let minp ← _check_minp minp (N : Int)
  let st1 := (arg.take (minp - 1).toNat).foldl rmStep1 ⟨0, [], []⟩
  let st2 := (List.range' (minp - 1).toNat (N - (minp - 1).toNat)).foldl
    (rmStep2 arg win minp) st1
  return st2.out

/-- The rolling-median algorithm in the form the claim states it: a
single pass over the positions in which position `i` first removes the
element `w` positions back (when `i ≥ w` and that element is non-NaN),
then inserts a non-NaN incoming value, and emits the median of the
window contents when the live counter reaches `minp`, NaN otherwise. -/
def rmStepSpec (arg : List F) (win : Int) (minp : Int) (st : RMState)
    (i : ℕ) : RMState :=
  let removed : Int × List ℚ :=
    if (i : Int) ≥ win then
      match arg.getD ((i : Int) - win).toNat none with
      | some prev => (st.nobs - 1, skiplist_remove st.sl prev)
      | none => (st.nobs, st.sl)
    else (st.nobs, st.sl)
  let inserted : Int × List ℚ :=
    match arg.getD i none with
    | some x => (removed.1 + 1, skiplist_insert removed.2 x)
    | none => removed
  let res : F :=
    if inserted.1 ≥ minp then some (rmMedian inserted.2 inserted.1)
    else none
  { nobs := inserted.1, sl := inserted.2, out := st.out ++ [res] }

/-- The per-position rolling median described by the claim, one output
per input position. -/
def rollMedianSpec (arg : List F) (win : Int) (minp : Int) : List F :=
  ((List.range arg.length).foldl (rmStepSpec arg win minp) ⟨0, [], []⟩).out

/-- Count of non-NaN values among the first `k` inputs. -/
def cNN (arg : List F) (k : ℕ) : Int :=
  ((arg.take k).countP (fun v => v.isSome) : ℕ)

@[simp] theorem cNN_zero (arg : List F) : cNN arg 0 = 0 := rfl

theorem cNN_nonneg (arg : List F) (k : ℕ) : 0 ≤ cNN arg k :=
  Int.natCast_nonneg _

theorem cNN_succ (arg : List F) (k : ℕ) (hk : k < arg.length) :
    cNN arg (k + 1) =
      cNN arg k + (if (arg.getD k none).isSome then 1 else 0) := by
  unfold cNN
  rw [List.take_succ, List.getElem?_eq_getElem hk, List.getD_eq_getElem _ _ hk]
  rw [List.countP_append]
  simp only [Option.toList_some, List.countP_singleton]
  by_cases h : (arg[k]).isSome <;> simp [h]

theorem cNN_succ_of_ge (arg : List F) (k : ℕ) (hk : arg.length ≤ k) :
    cNN arg (k + 1) = cNN arg k := by
  unfold cNN
  rw [List.take_of_length_le hk, List.take_of_length_le (by omega)]

theorem cNN_le (arg : List F) (k : ℕ) : cNN arg k ≤ (k : Int) := by
  unfold cNN
  have h1 : (arg.take k).countP (fun v => v.isSome) ≤ (arg.take k).length :=
    List.countP_le_length _
  have h2 : (arg.take k).length ≤ k := by
    simp [List.length_take]
  exact_mod_cast le_trans h1 h2

theorem cNN_mono (arg : List F) {j k : ℕ} (h : j ≤ k) :
    cNN arg j ≤ cNN arg k := by
  unfold cNN
  have : arg.take j <+: arg.take k := List.take_prefix_take_left _ h
  exact_mod_cast this.sublist.countP_le _

theorem cNN_lip (arg : List F) (j w : ℕ) :
    cNN arg (j + w) ≤ cNN arg j + (w : Int) := by
  induction w with
  | zero => simp
  | succ w ih =>
      rcases lt_or_le (j + w) arg.length with h | h
      · rw [← Nat.add_assoc, cNN_succ arg (j + w) h]
        push_cast
        split <;> omega
      · rw [← Nat.add_assoc, cNN_succ_of_ge arg (j + w) h]
        push_cast
        omega

/-- Invariant propagation over a fold of `List.range' s k`. -/
theorem foldl_range'_inv {σ : Type} (step : σ → ℕ → σ) (P : ℕ → σ → Prop)
    (s k : ℕ) (st : σ) (h0 : P s st)
    (hstep : ∀ i t, s ≤ i → i < s + k → P i t → P (i + 1) (step t i)) :
    P (s + k) ((List.range' s k).foldl step st) := by
  induction k generalizing s st with
  | zero => simpa using h0
  | succ k ih =>
      rw [List.range'_succ, List.foldl_cons]
      have h1 : P (s + 1) (step st s) :=
        hstep s st le_rfl (by omega) h0
      have h2 := ih (s + 1) (step st s) h1
        (fun i t hi hik hp => hstep i t (by omega) (by omega) hp)
      have he : s + 1 + k = s + (k + 1) := by omega
      rwa [he] at h2

/-- The main-loop body of `roll_median` coincides with the per-position
step of the claim: `i > win - 1` and `i ≥ win` are the same test on
integers. -/
theorem rmStep2_eq_rmStepSpec (arg : List F) (win minp : Int)
    (st : RMState) (i : ℕ) :
    rmStep2 arg win minp st i = rmStepSpec arg win minp st i := by
  unfold rmStep2 rmStepSpec
  by_cases h : win ≤ (i : Int)
  · rw [if_pos (show (i : Int) > win - 1 by omega),
      if_pos (show (i : Int) ≥ win from h)]
  · rw [if_neg (show ¬(i : Int) > win - 1 by omega),
      if_neg (show ¬(i : Int) ≥ win by omega)]

theorem rmStep2_funext (arg : List F) (win minp : Int) :
    rmStep2 arg win minp = rmStepSpec arg win minp :=
  funext fun st => funext fun i => rmStep2_eq_rmStepSpec arg win minp st i

theorem rmStep1_fold_out (xs : List F) (st : RMState) :
    (xs.foldl rmStep1 st).out = st.out ++ List.replicate xs.length none := by
  induction xs generalizing st with
  | nil => simp
  | cons v rest ih =>
      cases v <;> simp [rmStep1, List.foldl_cons, ih, List.replicate_succ]

theorem rmStep1_fold_nobs (xs : List F) (st : RMState) :
    (xs.foldl rmStep1 st).nobs =
      st.nobs + ((xs.countP (fun v => v.isSome) : ℕ) : Int) := by
  induction xs generalizing st with
  | nil => simp
  | cons v rest ih =>
      rw [List.foldl_cons, ih]
      cases v <;> simp [rmStep1, List.countP_cons]
      omega

theorem rmStep1_fold_take_nobs (arg : List F) (k : ℕ) :
    ((arg.take k).foldl rmStep1 ⟨0, [], []⟩).nobs = cNN arg k := by
  rw [rmStep1_fold_nobs]
  unfold cNN
  simp

/-- Unfolding lemma for a successful `roll_median` run. -/
theorem roll_median_ok (arg : List F) (win minp m : Int)
    (h : _check_minp minp (arg.length : Int) = Except.ok m) :
    roll_median arg win minp = Except.ok
      (((List.range' (m - 1).toNat (arg.length - (m - 1).toNat)).foldl
          (rmStep2 arg win m)
          ((arg.take (m - 1).toNat).foldl rmStep1 ⟨0, [], []⟩)).out) := by
  simp only [roll_median, h]
  rfl

/-- The live counter produced by one step of the per-position
algorithm, as a function of the counter entering the step. -/
def rmNobsAfter (arg : List F) (win : Int) (i : ℕ) (n : Int) : Int :=
  n - (if (i : Int) ≥ win then
        (if (arg.getD ((i : Int) - win).toNat none).isSome then 1 else 0)
      else 0)
    + (if (arg.getD i none).isSome then 1 else 0)

/-- The skip-list contents produced by one step of the per-position
algorithm. -/
def rmSlAfter (arg : List F) (win : Int) (i : ℕ) (sl : List ℚ) :
    List ℚ :=
  let removed : List ℚ :=
    if (i : Int) ≥ win then
      match arg.getD ((i : Int) - win).toNat none with
      | some prev => skiplist_remove sl prev
      | none => sl
    else sl
  match arg.getD i none with
  | some x => skiplist_insert removed x
  | none => removed

/-- Decomposition of a `rmStepSpec` step: the new counter is
`rmNobsAfter`, the skip list is `rmSlAfter`, and the output gains one
entry which is NaN unless the new counter reaches the threshold. -/
theorem rmStepSpec_decomp (arg : List F) (win minp : Int) (st : RMState)
    (i : ℕ) :
    rmStepSpec arg win minp st i =
      ⟨rmNobsAfter arg win i st.nobs, rmSlAfter arg win i st.sl,
        st.out ++ [if rmNobsAfter arg win i st.nobs ≥ minp then
          some (rmMedian (rmSlAfter arg win i st.sl)
            (rmNobsAfter arg win i st.nobs))
        else none]⟩ := by
  unfold rmStepSpec rmNobsAfter rmSlAfter
  by_cases hge : (i : Int) ≥ win
  · cases hr : arg.getD ((i : Int) - win).toNat none <;>
      cases hv : arg.getD i none <;>
      simp [hge, hr, hv]
  · cases hv : arg.getD i none <;>
      simp [hge, hv]

theorem rmStep2_decomp (arg : List F) (win minp : Int) (st : RMState)
    (i : ℕ) :
    rmStep2 arg win minp st i =
      ⟨rmNobsAfter arg win i st.nobs, rmSlAfter arg win i st.sl,
        st.out ++ [if rmNobsAfter arg win i st.nobs ≥ minp then
          some (rmMedian (rmSlAfter arg win i st.sl)
            (rmNobsAfter arg win i st.nobs))
        else none]⟩ := by
  rw [rmStep2_eq_rmStepSpec]
  exact rmStepSpec_decomp arg win minp st i

/-- Counter recurrence when the window is full (`i ≥ win`). -/
theorem rmNobsAfter_ge (arg : List F) (win : Int) (hw : 1 ≤ win) (i : ℕ)
    (hiN : i < arg.length) (hiW : win.toNat ≤ i) (n : Int) :
    rmNobsAfter arg win i n =
      n - (cNN arg (i - win.toNat + 1) - cNN arg (i - win.toNat))
        + (cNN arg (i + 1) - cNN arg i) := by
  have hWwin : (win.toNat : Int) = win := Int.toNat_of_nonneg (by omega)
  have hge : (i : Int) ≥ win := by omega
  have hidx : ((i : Int) - win).toNat = i - win.toNat := by omega
  have hjN : i - win.toNat < arg.length := by omega
  have hd1 := cNN_succ arg (i - win.toNat) hjN
  have hd2 := cNN_succ arg i hiN
  unfold rmNobsAfter
  rw [if_pos hge, hidx]
  split at hd1 <;> split at hd2 <;> simp_all

/-- Counter recurrence before the window fills (`i < win`). -/
theorem rmNobsAfter_lt (arg : List F) (win : Int) (i : ℕ)
    (hiN : i < arg.length) (hiW : ¬ (i : Int) ≥ win) (n : Int) :
    rmNobsAfter arg win i n = n + (cNN arg (i + 1) - cNN arg i) := by
  have hd2 := cNN_succ arg i hiN
  unfold rmNobsAfter
  rw [if_neg hiW]
  split at hd2 <;> simp_all

/-- The claim's per-position algorithm emits one output per input
position. -/
theorem rollMedianSpec_length (arg : List F) (win minp : Int) :
    (rollMedianSpec arg win minp).length = arg.length := by
  unfold rollMedianSpec
  rw [List.range_eq_range']
  have := foldl_range'_inv (rmStepSpec arg win minp)
    (fun i st => st.out.length = i) 0 arg.length ⟨0, [], []⟩ rfl
    (fun i t _ _ hp => by
      have heq := rmStepSpec_decomp arg win minp t i
      show (rmStepSpec arg win minp t i).out.length = i + 1
      rw [heq]
      simp only [List.length_append, List.length_singleton]
      exact congrArg (· + 1) hp)
  simpa using this

/-- The counter entering position `i` of the claim's algorithm equals
the non-NaN count among the `win` inputs ending at `i - 1`; when that
can never reach `minp`, every emitted value is NaN. -/
theorem rollMedianSpec_all_none (arg : List F) (win minp : Int)
    (hw : 1 ≤ win)
    (hbound : ∀ i : ℕ, i < arg.length →
      cNN arg (i + 1) - cNN arg (i + 1 - win.toNat) < minp) :
    rollMedianSpec arg win minp = List.replicate arg.length none := by
  unfold rollMedianSpec
  rw [List.range_eq_range']
  have hmain := foldl_range'_inv (rmStepSpec arg win minp)
    (fun i st => st.nobs = cNN arg i - cNN arg (i - win.toNat) ∧
      st.out = List.replicate i none)
    0 arg.length ⟨0, [], []⟩ (by simp)
    (fun i st _ hiN hp => by
      obtain ⟨hnobs, hout⟩ := hp
      have hiN' : i < arg.length := by omega
      have heq := rmStepSpec_decomp arg win minp st i
      have hnew : rmNobsAfter arg win i st.nobs =
          cNN arg (i + 1) - cNN arg (i + 1 - win.toNat) := by
        by_cases hge : (i : Int) ≥ win
        · have hiW : win.toNat ≤ i := by omega
          rw [rmNobsAfter_ge arg win hw i hiN' hiW, hnobs]
          have hsub : i + 1 - win.toNat = (i - win.toNat) + 1 := by omega
          rw [hsub]
          omega
        · have hiW : ¬ win.toNat ≤ i := by omega
          rw [rmNobsAfter_lt arg win i hiN' hge, hnobs]
          have h0 : i - win.toNat = 0 := by omega
          have h1 : i + 1 - win.toNat = 0 := by omega
          rw [h0, h1]
          simp only [cNN_zero]
          omega
      show ((rmStepSpec arg win minp st i).nobs =
          cNN arg (i + 1) - cNN arg (i + 1 - win.toNat)) ∧
        (rmStepSpec arg win minp st i).out = List.replicate (i + 1) none
      rw [heq]
      refine ⟨hnew, ?_⟩
      simp only
      rw [if_neg (by rw [hnew]; exact not_le.mpr (hbound i hiN')),
        hout, ← List.replicate_succ'])
  simpa using hmain.2

theorem _check_minp_id {minp N : Int} (h1 : 0 < minp) (h2 : minp ≤ N) :
    _check_minp minp N = Except.ok minp := by
  unfold _check_minp
  rw [if_neg (by omega), if_neg (by omega), if_neg (by omega)]

theorem _check_minp_over {minp N : Int} (h : N < minp) :
    _check_minp minp N = Except.ok (N + 1) := by
  unfold _check_minp
  rw [if_pos (by omega)]

/-- Case `minp > len(arg)`: the warm-up loop covers the whole input and
everything is NaN. -/
theorem roll_median_over (arg : List F) (win minp : Int)
    (h : (arg.length : Int) < minp) :
    roll_median arg win minp =
      Except.ok (List.replicate arg.length none) := by
  rw [roll_median_ok arg win minp ((arg.length : Int) + 1)
    (_check_minp_over h)]
  have ht : ((arg.length : Int) + 1 - 1).toNat = arg.length := by omega
  rw [ht, Nat.sub_self, List.range'_zero, List.foldl_nil, List.take_length,
    rmStep1_fold_out]
  simp

/-- Case `win + 2 ≤ minp ≤ len(arg)`: the skip list keeps stale values
never removed during the warm-up, yet the live counter can never reach
`minp`, so everything is NaN. -/
theorem roll_median_stale (arg : List F) (win minp : Int) (hw : 1 ≤ win)
    (hge : win + 2 ≤ minp) (hle : minp ≤ (arg.length : Int)) :
    roll_median arg win minp =
      Except.ok (List.replicate arg.length none) := by
  rw [roll_median_ok arg win minp minp (_check_minp_id (by omega) hle)]
  set N := arg.length with hN
  set M1 := (minp - 1).toNat with hM1
  have hM1i : (M1 : Int) = minp - 1 := Int.toNat_of_nonneg (by omega)
  have hM1N : M1 ≤ N := by omega
  have hWi : (win.toNat : Int) = win := Int.toNat_of_nonneg (by omega)
  have hWM1 : win.toNat + 1 ≤ M1 := by omega
  have hout1 : ((arg.take M1).foldl rmStep1 ⟨0, [], []⟩).out =
      List.replicate M1 none := by
    rw [rmStep1_fold_out]
    simp [List.length_take, min_eq_left hM1N]
  have hnobs1 := rmStep1_fold_take_nobs arg M1
  have hmain := foldl_range'_inv (rmStep2 arg win minp)
    (fun i st => st.nobs =
        cNN arg (M1 - win.toNat) + cNN arg i - cNN arg (i - win.toNat) ∧
      st.out = List.replicate i none)
    M1 (N - M1) ((arg.take M1).foldl rmStep1 ⟨0, [], []⟩)
    (by
      refine ⟨?_, hout1⟩
      rw [hnobs1]
      omega)
    (fun i st hi hik hp => by
      obtain ⟨hnobs, hout⟩ := hp
      have hiN : i < N := by omega
      have hiW : win.toNat ≤ i := by omega
      have heq := rmStep2_decomp arg win minp st i
      have hsub : i + 1 - win.toNat = (i - win.toNat) + 1 := by omega
      have hnew : rmNobsAfter arg win i st.nobs =
          cNN arg (M1 - win.toNat) + cNN arg (i + 1) -
            cNN arg (i + 1 - win.toNat) := by
        rw [rmNobsAfter_ge arg win hw i hiN hiW, hnobs, hsub]
        omega
      have hlow : rmNobsAfter arg win i st.nobs < minp := by
        rw [hnew]
        have b1 : cNN arg (M1 - win.toNat) ≤ ((M1 - win.toNat : ℕ) : Int) :=
          cNN_le arg (M1 - win.toNat)
        have b2 : cNN arg ((i + 1 - win.toNat) + win.toNat) ≤
            cNN arg (i + 1 - win.toNat) + (win.toNat : Int) :=
          cNN_lip arg (i + 1 - win.toNat) win.toNat
        have hiw1 : (i + 1 - win.toNat) + win.toNat = i + 1 := by omega
        rw [hiw1] at b2
        have hmw : ((M1 - win.toNat : ℕ) : Int) = minp - 1 - win := by omega
        omega
      show ((rmStep2 arg win minp st i).nobs =
          cNN arg (M1 - win.toNat) + cNN arg (i + 1) -
            cNN arg (i + 1 - win.toNat)) ∧
        (rmStep2 arg win minp st i).out = List.replicate (i + 1) none
      rw [heq]
      refine ⟨hnew, ?_⟩
      simp only
      rw [if_neg (not_le.mpr hlow), hout, ← List.replicate_succ'])
  have hfin : M1 + (N - M1) = N := by omega
  rw [hfin] at hmain
  rw [hmain.2]

/-- Warm-up step agreement: while the spec step cannot remove anything
and cannot reach the threshold, it is exactly the insert-only loop
body. -/
theorem rmStepSpec_warmup (arg : List F) (win minp : Int) (st : RMState)
    (i : ℕ) (hiN : i < arg.length) (hcond : ¬ (i : Int) ≥ win)
    (hlow : rmNobsAfter arg win i st.nobs < minp) :
    rmStepSpec arg win minp st i = rmStep1 st (arg.getD i none) := by
  rw [rmStepSpec_decomp]
  rw [if_neg (not_le.mpr hlow)]
  have hna : rmNobsAfter arg win i st.nobs =
      st.nobs + (if (arg.getD i none).isSome then 1 else 0) := by
    unfold rmNobsAfter
    rw [if_neg hcond]
    omega
  have hsl : rmSlAfter arg win i st.sl =
      match arg.getD i none with
      | some x => skiplist_insert st.sl x
      | none => st.sl := by
    unfold rmSlAfter
    rw [if_neg hcond]
  cases hv : arg.getD i none <;>
    rw [hv] at hna hsl <;>
    simp only [Option.isSome_none, Option.isSome_some, if_true, if_false,
      Bool.false_eq_true] at hna <;>
    simp [rmStep1, hna, hsl]

/-- Case `minp ≤ min(len(arg), win + 1)`: the two phases of the source
loop agree state-by-state with the claim's single pass. -/
theorem roll_median_regular (arg : List F) (win minp : Int)
    (hw : 1 ≤ win) (h1 : 1 ≤ minp) (hle : minp ≤ (arg.length : Int))
    (hwin : minp ≤ win + 1) :
    roll_median arg win minp =
      Except.ok (rollMedianSpec arg win minp) := by
  rw [roll_median_ok arg win minp minp (_check_minp_id (by omega) hle)]
  set N := arg.length with hN
  set M1 := (minp - 1).toNat with hM1
  have hM1i : (M1 : Int) = minp - 1 := Int.toNat_of_nonneg (by omega)
  have hM1N : M1 ≤ N := by omega
  have hph1 := foldl_range'_inv (rmStepSpec arg win minp)
    (fun i st => st = (arg.take i).foldl rmStep1 ⟨0, [], []⟩)
    0 M1 ⟨0, [], []⟩ (by simp)
    (fun i st hi hik hp => by
      simp only at hp
      have hiM1 : i < M1 := by omega
      have hiN : i < N := by omega
      have hcond : ¬ (i : Int) ≥ win := by omega
      have hnobs : st.nobs = cNN arg i := by
        rw [hp]
        exact rmStep1_fold_take_nobs arg i
      have hlow : rmNobsAfter arg win i st.nobs < minp := by
        have hlt := rmNobsAfter_lt arg win i hiN hcond st.nobs
        rw [hlt, hnobs]
        have hd2 := cNN_le arg (i + 1)
        have hd1 := cNN_succ arg i hiN
        split at hd1 <;> omega
      show rmStepSpec arg win minp st i =
        (arg.take (i + 1)).foldl rmStep1 ⟨0, [], []⟩
      have htake : arg.take (i + 1) = arg.take i ++ [arg.getD i none] := by
        rw [List.take_succ, List.getElem?_eq_getElem hiN,
          List.getD_eq_getElem _ _ hiN]
        rfl
      rw [rmStepSpec_warmup arg win minp st i hiN hcond hlow, hp, htake,
        List.foldl_append, List.foldl_cons, List.foldl_nil])
  have hsplit : List.range' 0 M1 ++ List.range' M1 (N - M1) =
      List.range' 0 N := by
    have h := List.range'_append 0 M1 (N - M1) 1
    simp only [Nat.one_mul, Nat.zero_add] at h
    rw [h, Nat.sub_add_cancel hM1N]
  unfold rollMedianSpec
  rw [List.range_eq_range', ← hsplit, List.foldl_append]
  simp only [Nat.zero_add] at hph1
  rw [hph1, rmStep2_funext]

/-- C2 counterexample: `roll_median` clamps `minp` against the input
length, not the window length.  Over a 5-element input with window 3 and
`minp = 6`, the clamp used by `roll_median` (namely
`_check_minp minp len(arg)`) keeps 6, whereas the claim requires the cap
`window length + 1 = 4`. -/
theorem claim_C2_counterexample :
    _check_minp 6
        ((([some 1, some 1, some 1, some 1, some 1] : List F).length :
          Int)) = Except.ok 6 ∧
      (6 : Int) ≠ 3 + 1 := by
  constructor
  · rfl
  · decide

/-- C2 (amended): in `roll_median` the clamp `_check_minp`
compares `minp` with `N = len(arg)` (the input length), not the window
length: `minp > N` is capped to `N + 1`, `minp == 0` becomes 1, negative
`minp` raises `ValueError` (which `roll_median` propagates), and any
other `minp` is kept. -/
theorem claim_C2 :
    (∀ minp N : Int, 0 ≤ N →
      (minp > N → _check_minp minp N = Except.ok (N + 1)) ∧
      (minp = 0 → _check_minp minp N = Except.ok 1) ∧
      (minp < 0 →
        _check_minp minp N = Except.error "min_periods must be >= 0") ∧
      (0 < minp → minp ≤ N → _check_minp minp N = Except.ok minp)) ∧
    (∀ (arg : List F) (win minp : Int), minp < 0 →
      roll_median arg win minp =
        Except.error "min_periods must be >= 0") := by
  constructor
  · intro minp N hN
    refine ⟨fun h => ?_, fun h => ?_, fun h => ?_, fun h1 h2 => ?_⟩
    · exact _check_minp_over h
    · unfold _check_minp
      rw [if_neg (by omega), if_pos h]
    · unfold _check_minp
      rw [if_neg (by omega), if_neg (by omega), if_pos h]
    · exact _check_minp_id h1 h2
  · intro arg win minp h
    have hc : _check_minp minp (arg.length : Int) =
        Except.error "min_periods must be >= 0" := by
      unfold _check_minp
      rw [if_neg (by omega), if_neg (by omega), if_pos h]
    simp only [roll_median, hc]
    rfl

/-- Witness for C2 at concrete inputs. -/
theorem claim_C2_witness :
    _check_minp 7 5 = Except.ok 6 ∧
      roll_median [some 1] 3 (-1) =
        Except.error "min_periods must be >= 0" :=
  ⟨((claim_C2.1 7 5 (by decide)).1 (by decide)),
    claim_C2.2 [some 1] 3 (-1) (by decide)⟩

/-- C3: for a positive window and threshold, `roll_median` computes, at
every position, exactly the per-position algorithm of the claim (remove
the element `win` back when `i ≥ win` and non-NaN, insert the non-NaN
incoming value, emit the skip-list median once the live counter reaches
`minp`, NaN otherwise), one output per input position; in particular
window 3 and `minp = 2` over `[1.0, NaN, 3.0, 5.0, 2.0]` yield
`[NaN, NaN, 2.0, 4.0, 3.0]`. -/
theorem claim_C3 :
    (∀ (arg : List F) (win minp : Int), 1 ≤ win → 1 ≤ minp →
      roll_median arg win minp =
        Except.ok (rollMedianSpec arg win minp)) ∧
    (∀ (arg : List F) (win minp : Int),
      (rollMedianSpec arg win minp).length = arg.length) ∧
    roll_median [some 1, none, some 3, some 5, some 2] 3 2 =
      Except.ok [none, none, some 2, some 4, some 3] := by
  refine ⟨fun arg win minp hw h1 => ?_, fun arg win minp =>
    rollMedianSpec_length arg win minp, by decide⟩
  rcases le_or_lt minp (arg.length : Int) with hle | hgt
  · rcases le_or_lt minp (win + 1) with hwin | hwin
    · exact roll_median_regular arg win minp hw h1 hle hwin
    · rw [roll_median_stale arg win minp hw (by omega) hle,
        rollMedianSpec_all_none arg win minp hw ?_]
      intro i hiN
      have b2 : cNN arg ((i + 1 - win.toNat) + win.toNat) ≤
          cNN arg (i + 1 - win.toNat) + (win.toNat : Int) :=
        cNN_lip arg (i + 1 - win.toNat) win.toNat
      have hWi : (win.toNat : Int) = win := Int.toNat_of_nonneg (by omega)
      rcases le_or_lt win.toNat (i + 1) with hc | hc
      · have hiw1 : (i + 1 - win.toNat) + win.toNat = i + 1 := by omega
        rw [hiw1] at b2
        omega
      · have h0 : i + 1 - win.toNat = 0 := by omega
        have hle2 := cNN_le arg (i + 1)
        have hnn := cNN_nonneg arg (i + 1 - win.toNat)
        rw [h0] at hnn ⊢
        simp only [cNN_zero]
        omega
  · rw [roll_median_over arg win minp hgt,
      rollMedianSpec_all_none arg win minp hw ?_]
    intro i hiN
    have hle2 := cNN_le arg (i + 1)
    have hnn := cNN_nonneg arg (i + 1 - win.toNat)
    omega

/-- Witness for C3 at concrete inputs. -/
theorem claim_C3_witness :
    roll_median [some 1, none, some 3, some 5, some 2] 3 2 =
      Except.ok
        (rollMedianSpec [some 1, none, some 3, some 5, some 2] 3 2) :=
  claim_C3.1 [some 1, none, some 3, some 5, some 2] 3 2 (by decide)
    (by decide)

/-! ### `groupsort_indexer` (groupby module)

```
def groupsort_indexer(ndarray[int32_t] index, Py_ssize_t ngroups):
    counts = np.zeros(ngroups + 1, dtype='i4')
    for i from 0 <= i < n:
        counts[index[i] + 1] += 1
    where = np.zeros(ngroups + 1, dtype='i4')
    for i from 1 <= i < ngroups + 1:
        where[i] = where[i - 1] + counts[i - 1]
    result = np.zeros(n, dtype='i4')
    for i from 0 <= i < n:
        label = index[i] + 1
        result[where[label]] = i
        where[label] += 1
    return result
```
-/

theorem getD_set_self {β : Type} (l : List β) (i : ℕ) (a d : β)
    (h : i < l.length) : (l.set i a).getD i d = a := by
  rw [List.getD_eq_getElem _ _ (by simpa using h)]
  simp [List.getElem_set_self]

theorem getD_set_ne {β : Type} (l : List β) {i j : ℕ} (a d : β)
    (h : i ≠ j) : (l.set i a).getD j d = l.getD j d := by
  rcases lt_or_le j l.length with hj | hj
  · rw [List.getD_eq_getElem _ _ (by simpa using hj),
      List.getD_eq_getElem _ _ hj]
    simp [List.getElem_set_ne h]
  · rw [List.getD_eq_default _ _ (by simpa using hj),
      List.getD_eq_default _ _ hj]

/-- The shifted label `index[i] + 1` used as a bucket number, bucket 0
holding the missing (`-1`) positions. -/
def slabel (index : List Int) (i : ℕ) : ℕ :=
  (index.getD i 0 + 1).toNat

/-- First pass of `groupsort_indexer`: per-bucket counts. -/
def gsCounts (index : List Int) (ngroups : ℕ) : List Int :=
  (List.range index.length).foldl
    (fun cs i => cs.set (slabel index i) (cs.getD (slabel index i) 0 + 1))
    (List.replicate (ngroups + 1) 0)

/-- Second pass of `groupsort_indexer`: exclusive prefix sums marking
the start of each contiguous group. -/
def gsWhere (index : List Int) (ngroups : ℕ) : List Int :=
  (List.range' 1 ngroups).foldl
    (fun ws i => ws.set i
      (ws.getD (i - 1) 0 + (gsCounts index ngroups).getD (i - 1) 0))
    (List.replicate (ngroups + 1) 0)

/-- Third pass of `groupsort_indexer`: place every original position at
its bucket's running offset. -/
def gsWrite (index : List Int) (ngroups : ℕ) : List Int × List Int :=
  (List.range index.length).foldl
    (fun p i =>
      (p.1.set (p.2.getD (slabel index i) 0).toNat (i : Int),
        p.2.set (slabel index i) (p.2.getD (slabel index i) 0 + 1)))
    (List.replicate index.length 0, gsWhere index ngroups)

/-- `groupsort_indexer` from the groupby module: three-pass counting
sort returning the permutation of positions. -/
def groupsort_indexer (index : List Int) (ngroups : ℕ) : List Int :=
  (gsWrite index ngroups).1

/-- Number of positions among the first `k` carrying shifted label `g`. -/
def gsCnt (index : List Int) (k g : ℕ) : ℕ :=
  (List.range k).countP (fun i => slabel index i = g)

/-- Total bucket size. -/
def gsTotal (index : List Int) (g : ℕ) : ℕ :=
  gsCnt index index.length g

/-- Start offset of bucket `g` (sum of the sizes of earlier buckets). -/
def gsStart (index : List Int) : ℕ → ℕ
  | 0 => 0
  | g + 1 => gsStart index g + gsTotal index g

/-- The address at which position `i` is written by the third pass. -/
def gsAddr (index : List Int) (i : ℕ) : ℕ :=
  gsStart index (slabel index i) + gsCnt index i (slabel index i)

theorem gsCnt_succ (index : List Int) (k g : ℕ) :
    gsCnt index (k + 1) g =
      gsCnt index k g + (if slabel index k = g then 1 else 0) := by
  unfold gsCnt
  rw [List.range_succ, List.countP_append]
  by_cases h : slabel index k = g <;> simp [h]

theorem gsCnt_mono (index : List Int) {j k : ℕ} (g : ℕ) (h : j ≤ k) :
    gsCnt index j g ≤ gsCnt index k g := by
  induction k with
  | zero =>
      have hj : j = 0 := by omega
      subst hj
      exact le_rfl
  | succ k ih =>
      rcases Nat.eq_or_lt_of_le h with rfl | hlt
      · exact le_rfl
      · have h2 := ih (by omega)
        rw [gsCnt_succ]
        split <;> omega

/-- A counted position makes the strict prefix count grow. -/
theorem gsCnt_lt_of_label (index : List Int) {i k : ℕ} (hik : i < k)
    (g : ℕ) (hg : slabel index i = g) :
    gsCnt index i g < gsCnt index k g := by
  have h1 : gsCnt index i g + 1 ≤ gsCnt index (i + 1) g := by
    rw [gsCnt_succ, if_pos hg]
  have h2 := gsCnt_mono index g (show i + 1 ≤ k by omega)
  omega

/-- A generic counting split: counting `f < m + 1` splits into `< m`
and `= m`. -/
theorem countP_lt_succ {β : Type} (l : List β) (m : ℕ) (f : β → ℕ) :
    l.countP (fun x => f x < m + 1) =
      l.countP (fun x => f x < m) + l.countP (fun x => f x = m) := by
  induction l with
  | nil => rfl
  | cons x xs ih =>
      simp only [List.countP_cons, ih]
      by_cases h1 : f x < m
      · have h3 : f x < m + 1 := by omega
        have h2 : ¬ f x = m := by omega
        simp [h1, h2, h3]
        omega
      · by_cases h2 : f x = m
        · have h3 : f x < m + 1 := by omega
          simp [h1, h2, h3]
          omega
        · have h3 : ¬ f x < m + 1 := by omega
          simp [h1, h2, h3]

theorem gsStart_eq_countP (index : List Int) (m : ℕ) :
    gsStart index m =
      (List.range index.length).countP (fun i => slabel index i < m) := by
  induction m with
  | zero => simp [gsStart]
  | succ m ih =>
      rw [gsStart, ih, countP_lt_succ]
      rfl

theorem gsStart_mono (index : List Int) {g h : ℕ} (hgh : g ≤ h) :
    gsStart index g ≤ gsStart index h := by
  induction h with
  | zero =>
      have hg : g = 0 := by omega
      subst hg
      exact le_rfl
  | succ h ih =>
      rcases Nat.eq_or_lt_of_le hgh with rfl | hlt
      · exact le_rfl
      · have h2 := ih (by omega)
        rw [gsStart]
        omega

/-- The precondition of C4/C9: every label lies in `[-1, ngroups)`. -/
def gsValid (index : List Int) (ngroups : ℕ) : Prop :=
  ∀ i : ℕ, i < index.length →
    -1 ≤ index.getD i 0 ∧ index.getD i 0 < (ngroups : Int)

theorem slabel_le {index : List Int} {ngroups : ℕ}
    (hv : gsValid index ngroups) {i : ℕ} (hi : i < index.length) :
    slabel index i ≤ ngroups := by
  obtain ⟨h1, h2⟩ := hv i hi
  unfold slabel
  omega

theorem slabel_cast {index : List Int} {ngroups : ℕ}
    (hv : gsValid index ngroups) {i : ℕ} (hi : i < index.length) :
    (slabel index i : Int) = index.getD i 0 + 1 := by
  obtain ⟨h1, h2⟩ := hv i hi
  unfold slabel
  omega

theorem gsStart_top {index : List Int} {ngroups : ℕ}
    (hv : gsValid index ngroups) :
    gsStart index (ngroups + 1) = index.length := by
  rw [gsStart_eq_countP]
  have h : ∀ i ∈ List.range index.length,
      slabel index i < ngroups + 1 := by
    intro i hi
    have := slabel_le hv (List.mem_range.mp hi)
    omega
  rw [List.countP_eq_length.mpr (fun a ha => by
    simpa using h a ha)]
  simp

theorem gsAddr_lt {index : List Int} {ngroups : ℕ}
    (hv : gsValid index ngroups) {i : ℕ} (hi : i < index.length) :
    gsAddr index i < index.length := by
  have h1 : gsCnt index i (slabel index i) <
      gsTotal index (slabel index i) :=
    gsCnt_lt_of_label index hi _ rfl
  have h2 : gsStart index (slabel index i) + gsTotal index (slabel index i) =
      gsStart index (slabel index i + 1) := rfl
  have h3 : gsStart index (slabel index i + 1) ≤
      gsStart index (ngroups + 1) :=
    gsStart_mono index (by have := slabel_le hv hi; omega)
  have h4 := gsStart_top hv
  unfold gsAddr
  omega

theorem gsAddr_lt_of_slabel_lt {index : List Int} {ngroups : ℕ}
    (hv : gsValid index ngroups) {i j : ℕ} (hi : i < index.length)
    (hj : j < index.length) (hlt : slabel index i < slabel index j) :
    gsAddr index i < gsAddr index j := by
  have h1 : gsCnt index i (slabel index i) <
      gsTotal index (slabel index i) :=
    gsCnt_lt_of_label index hi _ rfl
  have h2 : gsStart index (slabel index i) + gsTotal index (slabel index i) =
      gsStart index (slabel index i + 1) := rfl
  have h3 : gsStart index (slabel index i + 1) ≤
      gsStart index (slabel index j) := gsStart_mono index (by omega)
  unfold gsAddr
  omega

theorem gsAddr_lt_of_same_slabel {index : List Int} {i j : ℕ}
    (hij : i < j) (heq : slabel index i = slabel index j) :
    gsAddr index i < gsAddr index j := by
  have h1 : gsCnt index i (slabel index i) < gsCnt index j (slabel index i) :=
    gsCnt_lt_of_label index hij _ rfl
  unfold gsAddr
  rw [← heq]
  omega

theorem gsAddr_inj {index : List Int} {ngroups : ℕ}
    (hv : gsValid index ngroups) {i j : ℕ} (hi : i < index.length)
    (hj : j < index.length) (hne : i ≠ j) :
    gsAddr index i ≠ gsAddr index j := by
  rcases Nat.lt_trichotomy (slabel index i) (slabel index j) with h | h | h
  · exact Nat.ne_of_lt (gsAddr_lt_of_slabel_lt hv hi hj h)
  · rcases Nat.lt_or_ge i j with hij | hij
    · exact Nat.ne_of_lt (gsAddr_lt_of_same_slabel hij h)
    · have hji : j < i := by omega
      exact (Nat.ne_of_lt (gsAddr_lt_of_same_slabel hji h.symm)).symm
  · exact (Nat.ne_of_lt (gsAddr_lt_of_slabel_lt hv hj hi h)).symm

theorem gsCounts_spec {index : List Int} {ngroups : ℕ}
    (hv : gsValid index ngroups) :
    (gsCounts index ngroups).length = ngroups + 1 ∧
      ∀ g, g ≤ ngroups →
        (gsCounts index ngroups).getD g 0 = (gsTotal index g : Int) := by
  unfold gsCounts
  rw [List.range_eq_range']
  have hmain := foldl_range'_inv
    (fun cs i => cs.set (slabel index i)
      (cs.getD (slabel index i) 0 + 1))
    (fun k cs => cs.length = ngroups + 1 ∧
      ∀ g, g ≤ ngroups → cs.getD g 0 = (gsCnt index k g : Int))
    0 index.length (List.replicate (ngroups + 1) 0)
    (by
      refine ⟨by simp, fun g hg => ?_⟩
      rw [List.getD_eq_getElem _ _ (by simpa using by omega : g < (List.replicate (ngroups + 1) (0 : Int)).length)]
      simp [gsCnt])
    (fun i cs hi hik hp => by
      obtain ⟨hlen, hg⟩ := hp
      have hiN : i < index.length := by omega
      have hlab : slabel index i ≤ ngroups := slabel_le hv hiN
      refine ⟨by simpa using hlen, fun g hgle => ?_⟩
      by_cases hcase : slabel index i = g
      · subst hcase
        rw [getD_set_self _ _ _ _ (by omega), hg _ hlab, gsCnt_succ,
          if_pos rfl]
        push_cast
        ring
      · rw [getD_set_ne _ _ _ hcase, hg _ hgle, gsCnt_succ, if_neg hcase]
        simp)
  simp only [Nat.zero_add] at hmain
  exact ⟨hmain.1, fun g hg => hmain.2 g hg⟩

theorem gsWhere_spec {index : List Int} {ngroups : ℕ}
    (hv : gsValid index ngroups) :
    (gsWhere index ngroups).length = ngroups + 1 ∧
      ∀ g, g ≤ ngroups →
        (gsWhere index ngroups).getD g 0 = (gsStart index g : Int) := by
  unfold gsWhere
  have hmain := foldl_range'_inv
    (fun ws i => ws.set i
      (ws.getD (i - 1) 0 + (gsCounts index ngroups).getD (i - 1) 0))
    (fun i ws => ws.length = ngroups + 1 ∧
      (∀ j, j < i → j ≤ ngroups → ws.getD j 0 = (gsStart index j : Int)) ∧
      (∀ j, i ≤ j → j ≤ ngroups → ws.getD j 0 = 0))
    1 ngroups (List.replicate (ngroups + 1) 0)
    (by
      refine ⟨by simp, fun j hj hjle => ?_, fun j hj hjle => ?_⟩
      · have hj0 : j = 0 := by omega
        subst hj0
        rw [List.getD_eq_getElem _ _ (by simp)]
        simp [gsStart]
      · rw [List.getD_eq_getElem _ _ (by simp; omega)]
        simp)
    (fun i ws hi hik hp => by
      obtain ⟨hlen, hdone, hzero⟩ := hp
      have hile : i ≤ ngroups := by omega
      have hi1 : 1 ≤ i := hi
      have hprev : ws.getD (i - 1) 0 = (gsStart index (i - 1) : Int) :=
        hdone (i - 1) (by omega) (by omega)
      have hcnt := (gsCounts_spec hv).2 (i - 1) (by omega)
      refine ⟨by simpa using hlen, fun j hj hjle => ?_, fun j hj hjle => ?_⟩
      · by_cases hcase : i = j
        · subst hcase
          rw [getD_set_self ws i _ 0 (by omega), hprev, hcnt]
          have hstep : gsStart index i =
              gsStart index (i - 1) + gsTotal index (i - 1) := by
            have hi' : i = (i - 1) + 1 := by omega
            rw [hi']
            rfl
          rw [hstep]
          push_cast
          ring
        · rw [getD_set_ne _ _ _ hcase]
          exact hdone j (by omega) hjle
      · rw [getD_set_ne _ _ _ (by omega)]
        exact hzero j (by omega) hjle)
  exact ⟨hmain.1, fun g hg => hmain.2.1 g (by omega) hg⟩

theorem gsWrite_spec {index : List Int} {ngroups : ℕ}
    (hv : gsValid index ngroups) :
    (groupsort_indexer index ngroups).length = index.length ∧
      ∀ i, i < index.length →
        (groupsort_indexer index ngroups).getD (gsAddr index i) 0 =
          (i : Int) := by
  unfold groupsort_indexer gsWrite
  rw [List.range_eq_range']
  have hmain := foldl_range'_inv
    (fun (p : List Int × List Int) i =>
      (p.1.set (p.2.getD (slabel index i) 0).toNat (i : Int),
        p.2.set (slabel index i) (p.2.getD (slabel index i) 0 + 1)))
    (fun k p => p.1.length = index.length ∧
      p.2.length = ngroups + 1 ∧
      (∀ g, g ≤ ngroups →
        p.2.getD g 0 = ((gsStart index g + gsCnt index k g : ℕ) : Int)) ∧
      (∀ i, i < k → p.1.getD (gsAddr index i) 0 = (i : Int)))
    0 index.length (List.replicate index.length 0, gsWhere index ngroups)
    (by
      refine ⟨by simp, (gsWhere_spec hv).1, fun g hg => ?_, fun i hi => by omega⟩
      rw [(gsWhere_spec hv).2 g hg]
      simp [gsCnt])
    (fun i p hi hik hp => by
      obtain ⟨hrlen, hwlen, hwhere, hres⟩ := hp
      have hiN : i < index.length := by omega
      have hlab : slabel index i ≤ ngroups := slabel_le hv hiN
      have haddr : (p.2.getD (slabel index i) 0).toNat = gsAddr index i := by
        rw [hwhere _ hlab]
        unfold gsAddr
        omega
      have haddr_lt : gsAddr index i < index.length := gsAddr_lt hv hiN
      refine ⟨by simpa using hrlen, by simpa using hwlen,
        fun g hg => ?_, fun j hj => ?_⟩
      · by_cases hcase : slabel index i = g
        · subst hcase
          rw [getD_set_self p.2 _ _ 0 (by omega), hwhere _ hlab,
            gsCnt_succ, if_pos rfl]
          push_cast
          ring
        · rw [getD_set_ne _ _ _ hcase, hwhere _ hg, gsCnt_succ,
            if_neg hcase]
          omega
      · show (p.1.set (p.2.getD (slabel index i) 0).toNat
            (i : Int)).getD (gsAddr index j) 0 = (j : Int)
        rcases Nat.lt_or_ge j i with hji | hji
        · rw [haddr, getD_set_ne _ _ _
            (gsAddr_inj hv hiN (by omega) (by omega))]
          exact hres j hji
        · have hjeq : j = i := by omega
          subst hjeq
          rw [haddr, getD_set_self p.1 _ _ 0 (by omega)])
  simp only [Nat.zero_add] at hmain
  exact ⟨hmain.1, fun i hi => hmain.2.2.2 i hi⟩

/-- Every slot of the result is hit by exactly one write address. -/
theorem gsAddr_surj {index : List Int} {ngroups : ℕ}
    (hv : gsValid index ngroups) {p : ℕ} (hp : p < index.length) :
    ∃ i, i < index.length ∧ gsAddr index i = p := by
  have hinj : Function.Injective
      (fun i : Fin index.length =>
        (⟨gsAddr index i.1, gsAddr_lt hv i.2⟩ : Fin index.length)) := by
    intro a b hab
    by_contra hne
    exact gsAddr_inj hv a.2 b.2 (fun h => hne (Fin.ext h))
      (congrArg Fin.val hab)
  have hsurj := Finite.injective_iff_surjective.mp hinj
  obtain ⟨i, hi⟩ := hsurj ⟨p, hp⟩
  exact ⟨i.1, i.2, congrArg Fin.val hi⟩

/-- Labels compare the same way as shifted labels, given validity. -/
theorem slabel_le_iff {index : List Int} {ngroups : ℕ}
    (hv : gsValid index ngroups) {i j : ℕ} (hi : i < index.length)
    (hj : j < index.length) :
    slabel index i ≤ slabel index j ↔
      index.getD i 0 ≤ index.getD j 0 := by
  have h1 := slabel_cast hv hi
  have h2 := slabel_cast hv hj
  omega

/-- C4: for every int32 label array with values in `[-1, ngroups)`,
`groupsort_indexer` returns a sequence of length `n` in which every
position of `[0, n)` occurs exactly once (a bijection on `[0, n)`), and
reading the labels in permutation order is monotone non-decreasing —
equal labels form contiguous runs in ascending order — with every
`-1`-labelled position in the run before any other label. -/
theorem claim_C4 (index : List Int) (ngroups : ℕ)
    (hv : gsValid index ngroups) :
    (groupsort_indexer index ngroups).length = index.length ∧
    (∀ p, p < index.length → ∃ i, i < index.length ∧
      (groupsort_indexer index ngroups).getD p 0 = (i : Int)) ∧
    (∀ v, v < index.length → ∃! p, p < index.length ∧
      (groupsort_indexer index ngroups).getD p 0 = (v : Int)) ∧
    (∀ p q, p < q → q < index.length →
      index.getD ((groupsort_indexer index ngroups).getD p 0).toNat 0 ≤
        index.getD ((groupsort_indexer index ngroups).getD q 0).toNat 0) ∧
    (∀ p q, p ≤ q → q < index.length →
      index.getD ((groupsort_indexer index ngroups).getD q 0).toNat 0 = -1 →
      index.getD ((groupsort_indexer index ngroups).getD p 0).toNat 0 = -1) := by
  obtain ⟨hlen, hgetD⟩ := gsWrite_spec hv
  have hread : ∀ p, p < index.length →
      ∃ i, i < index.length ∧ gsAddr index i = p ∧
        (groupsort_indexer index ngroups).getD p 0 = (i : Int) := by
    intro p hp
    obtain ⟨i, hi, haddr⟩ := gsAddr_surj hv hp
    exact ⟨i, hi, haddr, by rw [← haddr]; exact hgetD i hi⟩
  have hsorted : ∀ p q, p < q → q < index.length →
      index.getD ((groupsort_indexer index ngroups).getD p 0).toNat 0 ≤
        index.getD ((groupsort_indexer index ngroups).getD q 0).toNat 0 := by
    intro p q hpq hq
    obtain ⟨i, hi, hai, hri⟩ := hread p (by omega)
    obtain ⟨j, hj, haj, hrj⟩ := hread q hq
    rw [hri, hrj, Int.toNat_natCast, Int.toNat_natCast]
    by_contra hgt
    push_neg at hgt
    have hslt : slabel index j < slabel index i := by
      have h1 := slabel_cast hv hi
      have h2 := slabel_cast hv hj
      omega
    have := gsAddr_lt_of_slabel_lt hv hj hi hslt
    omega
  refine ⟨hlen, ?_, ?_, hsorted, ?_⟩
  · intro p hp
    obtain ⟨i, hi, _, hri⟩ := hread p hp
    exact ⟨i, hi, hri⟩
  · intro v hvlt
    refine ⟨gsAddr index v, ⟨gsAddr_lt hv hvlt, hgetD v hvlt⟩, ?_⟩
    rintro p ⟨hp, hread_p⟩
    obtain ⟨i, hi, hai, hri⟩ := hread p hp
    rw [hri] at hread_p
    have hiv : i = v := by exact_mod_cast hread_p
    rw [← hai, hiv]
  · intro p q hpq hq hq1
    rcases Nat.eq_or_lt_of_le hpq with rfl | hlt
    · exact hq1
    · have h := hsorted p q hlt hq
      obtain ⟨i, hi, _, hri⟩ := hread p (by omega)
      have hvalid := hv ((groupsort_indexer index ngroups).getD p 0).toNat
        (by rw [hri, Int.toNat_natCast]; exact hi)
      omega

/-- Witness for C4 at a concrete input: labels `[1, -1, 0, 1]` with
`ngroups = 2`. -/
theorem claim_C4_witness :
    (groupsort_indexer [1, -1, 0, 1] 2).length =
        ([1, -1, 0, 1] : List Int).length ∧
      ∃ i, i < ([1, -1, 0, 1] : List Int).length ∧
        (groupsort_indexer [1, -1, 0, 1] 2).getD 0 0 = (i : Int) := by
  have h := claim_C4 [1, -1, 0, 1] 2 (by
    intro i hi
    simp only [List.length_cons, List.length_nil] at hi
    interval_cases i <;> constructor <;> decide)
  exact ⟨h.1, h.2.1 0 (by decide)⟩

/-- C9: `groupsort_indexer` is stable — positions carrying equal labels
keep their original relative order in the returned permutation. -/
theorem claim_C9 (index : List Int) (ngroups : ℕ)
    (hv : gsValid index ngroups) :
    ∀ i j, i < j → j < index.length →
      index.getD i 0 = index.getD j 0 →
      ∃ p q, p < q ∧ q < index.length ∧
        (groupsort_indexer index ngroups).getD p 0 = (i : Int) ∧
        (groupsort_indexer index ngroups).getD q 0 = (j : Int) := by
  intro i j hij hj heq
  obtain ⟨hlen, hgetD⟩ := gsWrite_spec hv
  have hslab : slabel index i = slabel index j := by
    unfold slabel
    rw [heq]
  refine ⟨gsAddr index i, gsAddr index j,
    gsAddr_lt_of_same_slabel hij hslab, gsAddr_lt hv hj,
    hgetD i (by omega), hgetD j hj⟩

/-- Witness for C9 at a concrete input. -/
theorem claim_C9_witness :
    ∃ p q, p < q ∧ q < ([1, -1, 0, 1] : List Int).length ∧
      (groupsort_indexer [1, -1, 0, 1] 2).getD p 0 = ((0 : ℕ) : Int) ∧
      (groupsort_indexer [1, -1, 0, 1] 2).getD q 0 = ((3 : ℕ) : Int) :=
  claim_C9 [1, -1, 0, 1] 2 (by
    intro i hi
    simp only [List.length_cons, List.length_nil] at hi
    interval_cases i <;> constructor <;> decide) 0 3 (by decide) (by decide)
    (by decide)

/-! ### Group aggregations (`group_add`, `group_mean`, `group_var`)

```
def group_add(out, counts, values, labels):
    nobs = np.zeros_like(out); sumx = np.zeros_like(out)
    for i in range(len(values)):
        lab = labels[i]
        if lab < 0: continue
        counts[lab] += 1
        val = values[i]
        if val == val:
            nobs[lab] += 1; sumx[lab] += val
    for i in range(len(counts)):
        out[i] = nan if nobs[i] == 0 else sumx[i]
```
`group_mean` runs the same pass (it reads `val` before bumping
`counts[lab]`, an unobservable difference) and divides by the non-NaN
count; `group_var` additionally accumulates `sumxx` and applies the
two-moment formula requiring at least two observations. -/

/-- The shared accumulation pass of `group_add` and `group_mean`. -/
def group_add_mean_step (values : List F) (labels : List Int)
    (st : List Int × List ℚ × List ℚ) (i : ℕ) :
    List Int × List ℚ × List ℚ :=
  let lab := labels.getD i 0
  if lab < 0 then st
  else
    let counts' := st.1.set lab.toNat (st.1.getD lab.toNat 0 + 1)
    match values.getD i none with
    | some val =>
        (counts', st.2.1.set lab.toNat (st.2.1.getD lab.toNat 0 + 1),
          st.2.2.set lab.toNat (st.2.2.getD lab.toNat 0 + val))
    | none => (counts', st.2.1, st.2.2)

def group_add_mean_pass (counts : List Int) (nobs sumx : List ℚ)
    (values : List F) (labels : List Int) :
    List Int × List ℚ × List ℚ :=
  (List.range values.length).foldl (group_add_mean_step values labels)
    (counts, nobs, sumx)

/-- The accumulation pass of `group_var`. -/
def group_var_step (values : List F) (labels : List Int)
    (st : List Int × List ℚ × List ℚ × List ℚ) (i : ℕ) :
    List Int × List ℚ × List ℚ × List ℚ :=
  let lab := labels.getD i 0
  if lab < 0 then st
  else
    let counts' := st.1.set lab.toNat (st.1.getD lab.toNat 0 + 1)
    match values.getD i none with
    | some val =>
        (counts', st.2.1.set lab.toNat (st.2.1.getD lab.toNat 0 + 1),
          st.2.2.1.set lab.toNat (st.2.2.1.getD lab.toNat 0 + val),
          st.2.2.2.set lab.toNat
            (st.2.2.2.getD lab.toNat 0 + val * val))
    | none => (counts', st.2.1, st.2.2.1, st.2.2.2)

def group_var_pass (counts : List Int) (nobs sumx sumxx : List ℚ)
    (values : List F) (labels : List Int) :
    List Int × List ℚ × List ℚ × List ℚ :=
  (List.range values.length).foldl (group_var_step values labels)
    (counts, nobs, sumx, sumxx)

/-- `group_add`: per-group sum, NaN for groups with no non-missing
observation.  Returns the (mutated) `out` and `counts` arrays. -/
def group_add (out : List F) (counts : List Int) (values : List F)
    (labels : List Int) : List F × List Int :=
  let p := group_add_mean_pass counts (List.replicate out.length 0)
    (List.replicate out.length 0) values labels
  ((List.range counts.length).foldl
      (fun o i => o.set i
        (if p.2.1.getD i 0 = 0 then none else some (p.2.2.getD i 0)))
      out,
    p.1)

/-- `group_mean`: per-group mean, NaN for groups with no non-missing
observation. -/
def group_mean (out : List F) (counts : List Int) (values : List F)
    (labels : List Int) : List F × List Int :=
  let p := group_add_mean_pass counts (List.replicate out.length 0)
    (List.replicate out.length 0) values labels
  ((List.range counts.length).foldl
      (fun o i => o.set i
        (if p.2.1.getD i 0 = 0 then none
        else some (p.2.2.getD i 0 / p.2.1.getD i 0)))
      out,
    p.1)

/-- `group_var`: per-group two-moment variance
`(ct·Sxx − Sx²)/(ct² − ct)`, NaN for groups with fewer than two
non-missing observations. -/
def group_var (out : List F) (counts : List Int) (values : List F)
    (labels : List Int) : List F × List Int :=
  let p := group_var_pass counts (List.replicate out.length 0)
    (List.replicate out.length 0) (List.replicate out.length 0)
    values labels
  ((List.range counts.length).foldl
      (fun o i => o.set i
        (if p.2.1.getD i 0 < 2 then none
        else some ((p.2.1.getD i 0 * p.2.2.2.getD i 0 -
            p.2.2.1.getD i 0 * p.2.2.1.getD i 0) /
          (p.2.1.getD i 0 * p.2.1.getD i 0 - p.2.1.getD i 0))))
      out,
    p.1)

/-- Positions among the first `k` carrying group label `g`. -/
def grpPosK (labels : List Int) (k g : ℕ) : List ℕ :=
  (List.range k).filter (fun i => labels.getD i 0 = (g : Int))

/-- Non-missing values among the first `k` carrying group label `g`. -/
def grpValsK (values : List F) (labels : List Int) (k g : ℕ) : List ℚ :=
  (grpPosK labels k g).filterMap (fun i => values.getD i none)

/-- Total number of elements (NaN included) in group `g`. -/
def grpAll (values : List F) (labels : List Int) (g : ℕ) : ℕ :=
  (grpPosK labels values.length g).length

/-- The non-missing values of group `g`. -/
def grpVals (values : List F) (labels : List Int) (g : ℕ) : List ℚ :=
  grpValsK values labels values.length g

/-- Number of non-missing observations of group `g`. -/
def grpNobs (values : List F) (labels : List Int) (g : ℕ) : ℕ :=
  (grpVals values labels g).length

/-- Sum of the non-missing observations of group `g`. -/
def grpSum (values : List F) (labels : List Int) (g : ℕ) : ℚ :=
  (grpVals values labels g).sum

/-- Sum of squares of the non-missing observations of group `g`. -/
def grpSumSq (values : List F) (labels : List Int) (g : ℕ) : ℚ :=
  ((grpVals values labels g).map (fun x => x * x)).sum

theorem grpPosK_succ (labels : List Int) (k g : ℕ) :
    grpPosK labels (k + 1) g = grpPosK labels k g ++
      (if labels.getD k 0 = (g : Int) then [k] else []) := by
  unfold grpPosK
  rw [List.range_succ, List.filter_append]
  by_cases h : labels.getD k 0 = (g : Int) <;> simp_all [List.getD]

theorem grpValsK_succ (values : List F) (labels : List Int) (k g : ℕ) :
    grpValsK values labels (k + 1) g = grpValsK values labels k g ++
      (if labels.getD k 0 = (g : Int) then
        (values.getD k none).toList
      else []) := by
  unfold grpValsK
  rw [grpPosK_succ, List.filterMap_append]
  by_cases h : labels.getD k 0 = (g : Int) <;>
    cases hv : values.getD k none <;> simp_all [List.getD]

theorem getD_replicate {β : Type} (n j : ℕ) (c d : β) (h : j < n) :
    (List.replicate n c).getD j d = c := by
  rw [List.getD_eq_getElem _ _ (by simpa using h)]
  simp

theorem group_var_step_neg (values : List F) (labels : List Int)
    (st : List Int × List ℚ × List ℚ × List ℚ) (i : ℕ)
    (h : labels.getD i 0 < 0) :
    group_var_step values labels st i = st := by
  unfold group_var_step
  rw [if_pos h]

theorem group_var_step_some (values : List F) (labels : List Int)
    (st : List Int × List ℚ × List ℚ × List ℚ) (i : ℕ) {v : ℚ}
    (h : ¬ labels.getD i 0 < 0) (hv : values.getD i none = some v) :
    group_var_step values labels st i =
      ((st.1.set (labels.getD i 0).toNat
          (st.1.getD (labels.getD i 0).toNat 0 + 1)),
        st.2.1.set (labels.getD i 0).toNat
          (st.2.1.getD (labels.getD i 0).toNat 0 + 1),
        st.2.2.1.set (labels.getD i 0).toNat
          (st.2.2.1.getD (labels.getD i 0).toNat 0 + v),
        st.2.2.2.set (labels.getD i 0).toNat
          (st.2.2.2.getD (labels.getD i 0).toNat 0 + v * v)) := by
  unfold group_var_step
  rw [if_neg h, hv]

theorem group_var_step_nan (values : List F) (labels : List Int)
    (st : List Int × List ℚ × List ℚ × List ℚ) (i : ℕ)
    (h : ¬ labels.getD i 0 < 0) (hv : values.getD i none = none) :
    group_var_step values labels st i =
      ((st.1.set (labels.getD i 0).toNat
          (st.1.getD (labels.getD i 0).toNat 0 + 1)),
        st.2.1, st.2.2.1, st.2.2.2) := by
  unfold group_var_step
  rw [if_neg h, hv]

theorem group_add_mean_step_neg (values : List F) (labels : List Int)
    (st : List Int × List ℚ × List ℚ) (i : ℕ)
    (h : labels.getD i 0 < 0) :
    group_add_mean_step values labels st i = st := by
  unfold group_add_mean_step
  rw [if_pos h]

theorem group_add_mean_step_some (values : List F) (labels : List Int)
    (st : List Int × List ℚ × List ℚ) (i : ℕ) {v : ℚ}
    (h : ¬ labels.getD i 0 < 0) (hv : values.getD i none = some v) :
    group_add_mean_step values labels st i =
      ((st.1.set (labels.getD i 0).toNat
          (st.1.getD (labels.getD i 0).toNat 0 + 1)),
        st.2.1.set (labels.getD i 0).toNat
          (st.2.1.getD (labels.getD i 0).toNat 0 + 1),
        st.2.2.set (labels.getD i 0).toNat
          (st.2.2.getD (labels.getD i 0).toNat 0 + v)) := by
  unfold group_add_mean_step
  rw [if_neg h, hv]

theorem group_add_mean_step_nan (values : List F) (labels : List Int)
    (st : List Int × List ℚ × List ℚ) (i : ℕ)
    (h : ¬ labels.getD i 0 < 0) (hv : values.getD i none = none) :
    group_add_mean_step values labels st i =
      ((st.1.set (labels.getD i 0).toNat
          (st.1.getD (labels.getD i 0).toNat 0 + 1)),
        st.2.1, st.2.2) := by
  unfold group_add_mean_step
  rw [if_neg h, hv]

/-- Closed form of the `group_var` accumulation pass. -/
theorem group_var_pass_spec (counts : List Int) (L : ℕ)
    (values : List F) (labels : List Int)
    (hlab : ∀ i, i < values.length →
      labels.getD i 0 < (counts.length : Int) ∧
        labels.getD i 0 < (L : Int)) :
    (group_var_pass counts (List.replicate L 0) (List.replicate L 0)
        (List.replicate L 0) values labels).1.length = counts.length ∧
    (∀ g, g < counts.length →
      (group_var_pass counts (List.replicate L 0) (List.replicate L 0)
          (List.replicate L 0) values labels).1.getD g 0 =
        counts.getD g 0 + (grpAll values labels g : Int)) ∧
    (∀ g, g < L →
      (group_var_pass counts (List.replicate L 0) (List.replicate L 0)
          (List.replicate L 0) values labels).2.1.getD g 0 =
          (grpNobs values labels g : ℚ) ∧
        (group_var_pass counts (List.replicate L 0) (List.replicate L 0)
          (List.replicate L 0) values labels).2.2.1.getD g 0 =
          grpSum values labels g ∧
        (group_var_pass counts (List.replicate L 0) (List.replicate L 0)
          (List.replicate L 0) values labels).2.2.2.getD g 0 =
          grpSumSq values labels g) := by
  unfold group_var_pass
  rw [List.range_eq_range']
  have hmain := foldl_range'_inv (group_var_step values labels)
    (fun k st => st.1.length = counts.length ∧ st.2.1.length = L ∧
      st.2.2.1.length = L ∧ st.2.2.2.length = L ∧
      (∀ g, g < counts.length → st.1.getD g 0 =
        counts.getD g 0 + ((grpPosK labels k g).length : Int)) ∧
      (∀ g, g < L →
        st.2.1.getD g 0 = ((grpValsK values labels k g).length : ℚ) ∧
        st.2.2.1.getD g 0 = (grpValsK values labels k g).sum ∧
        st.2.2.2.getD g 0 =
          ((grpValsK values labels k g).map (fun x => x * x)).sum))
    0 values.length (counts, List.replicate L 0, List.replicate L 0,
      List.replicate L 0)
    (by
      refine ⟨rfl, by simp, by simp, by simp, fun g hg => ?_,
        fun g hg => ?_⟩
      · simp [grpPosK]
      · refine ⟨?_, ?_, ?_⟩ <;> simp [grpValsK, grpPosK])
    (fun i st hi hik hp => by
      obtain ⟨hc, hn, hs, hx, hcg, hvg⟩ := hp
      have hiN : i < values.length := by omega
      by_cases hneg : labels.getD i 0 < 0
      · rw [group_var_step_neg values labels st i hneg]
        refine ⟨hc, hn, hs, hx, fun g hg => ?_, fun g hg => ?_⟩
        · rw [hcg g hg, grpPosK_succ, if_neg (by omega)]
          simp
        · obtain ⟨h1, h2, h3⟩ := hvg g hg
          rw [h1, h2, h3, grpValsK_succ, if_neg (by omega)]
          simp
      · have hl1 : (labels.getD i 0).toNat < counts.length := by
          have := (hlab i hiN).1
          omega
        have hl2 : (labels.getD i 0).toNat < L := by
          have := (hlab i hiN).2
          omega
        have hgl : ∀ g : ℕ, (labels.getD i 0 = (g : Int)) ↔
            ((labels.getD i 0).toNat = g) := by
          intro g
          omega
        cases hv : values.getD i none with
        | some v =>
            rw [group_var_step_some values labels st i hneg hv]
            refine ⟨by simpa using hc, by simpa using hn,
              by simpa using hs, by simpa using hx,
              fun g hg => ?_, fun g hg => ?_⟩
            · by_cases hcase : (labels.getD i 0).toNat = g
              · subst hcase
                rw [getD_set_self _ _ _ _ (by omega),
                  hcg _ hl1, grpPosK_succ, if_pos ((hgl _).mpr rfl)]
                simp only [List.length_append, List.length_singleton]
                push_cast
                ring
              · rw [getD_set_ne _ _ _ hcase, hcg g hg, grpPosK_succ,
                  if_neg (fun hx2 => hcase ((hgl g).mp hx2))]
                simp
            · obtain ⟨h1, h2, h3⟩ := hvg g hg
              by_cases hcase : (labels.getD i 0).toNat = g
              · subst hcase
                rw [getD_set_self _ _ _ _ (by omega),
                  getD_set_self _ _ _ _ (by omega),
                  getD_set_self _ _ _ _ (by omega),
                  h1, h2, h3, grpValsK_succ, if_pos ((hgl _).mpr rfl),
                  hv]
                refine ⟨?_, ?_, ?_⟩ <;> simp <;> push_cast <;> ring
              · rw [getD_set_ne _ _ _ hcase, getD_set_ne _ _ _ hcase,
                  getD_set_ne _ _ _ hcase, h1, h2, h3, grpValsK_succ,
                  if_neg (fun hx2 => hcase ((hgl g).mp hx2))]
                simp
        | none =>
            rw [group_var_step_nan values labels st i hneg hv]
            refine ⟨by simpa using hc, hn, hs, hx,
              fun g hg => ?_, fun g hg => ?_⟩
            · by_cases hcase : (labels.getD i 0).toNat = g
              · subst hcase
                rw [getD_set_self _ _ _ _ (by omega),
                  hcg _ hl1, grpPosK_succ, if_pos ((hgl _).mpr rfl)]
                simp only [List.length_append, List.length_singleton]
                push_cast
                ring
              · rw [getD_set_ne _ _ _ hcase, hcg g hg, grpPosK_succ,
                  if_neg (fun hx2 => hcase ((hgl g).mp hx2))]
                simp
            · obtain ⟨h1, h2, h3⟩ := hvg g hg
              rw [h1, h2, h3]
              by_cases hcase : (labels.getD i 0).toNat = g
              · subst hcase
                rw [grpValsK_succ, if_pos ((hgl _).mpr rfl), hv]
                simp
              · rw [grpValsK_succ,
                  if_neg (fun hx2 => hcase ((hgl g).mp hx2))]
                simp)
  simp only [Nat.zero_add] at hmain
  exact ⟨hmain.1, fun g hg => hmain.2.2.2.2.1 g hg,
    fun g hg => hmain.2.2.2.2.2 g hg⟩

/-- Closed form of the shared `group_add`/`group_mean` pass. -/
theorem group_add_mean_pass_spec (counts : List Int) (L : ℕ)
    (values : List F) (labels : List Int)
    (hlab : ∀ i, i < values.length →
      labels.getD i 0 < (counts.length : Int) ∧
        labels.getD i 0 < (L : Int)) :
    (group_add_mean_pass counts (List.replicate L 0)
        (List.replicate L 0) values labels).1.length = counts.length ∧
    (∀ g, g < counts.length →
      (group_add_mean_pass counts (List.replicate L 0)
          (List.replicate L 0) values labels).1.getD g 0 =
        counts.getD g 0 + (grpAll values labels g : Int)) ∧
    (∀ g, g < L →
      (group_add_mean_pass counts (List.replicate L 0)
          (List.replicate L 0) values labels).2.1.getD g 0 =
          (grpNobs values labels g : ℚ) ∧
        (group_add_mean_pass counts (List.replicate L 0)
          (List.replicate L 0) values labels).2.2.getD g 0 =
          grpSum values labels g) := by
  unfold group_add_mean_pass
  rw [List.range_eq_range']
  have hmain := foldl_range'_inv (group_add_mean_step values labels)
    (fun k st => st.1.length = counts.length ∧ st.2.1.length = L ∧
      st.2.2.length = L ∧
      (∀ g, g < counts.length → st.1.getD g 0 =
        counts.getD g 0 + ((grpPosK labels k g).length : Int)) ∧
      (∀ g, g < L →
        st.2.1.getD g 0 = ((grpValsK values labels k g).length : ℚ) ∧
        st.2.2.getD g 0 = (grpValsK values labels k g).sum))
    0 values.length (counts, List.replicate L 0, List.replicate L 0)
    (by
      refine ⟨rfl, by simp, by simp, fun g hg => ?_, fun g hg => ?_⟩
      · simp [grpPosK]
      · refine ⟨?_, ?_⟩ <;> simp [grpValsK, grpPosK])
    (fun i st hi hik hp => by
      obtain ⟨hc, hn, hs, hcg, hvg⟩ := hp
      have hiN : i < values.length := by omega
      by_cases hneg : labels.getD i 0 < 0
      · rw [group_add_mean_step_neg values labels st i hneg]
        refine ⟨hc, hn, hs, fun g hg => ?_, fun g hg => ?_⟩
        · rw [hcg g hg, grpPosK_succ, if_neg (by omega)]
          simp
        · obtain ⟨h1, h2⟩ := hvg g hg
          rw [h1, h2, grpValsK_succ, if_neg (by omega)]
          simp
      · have hl1 : (labels.getD i 0).toNat < counts.length := by
          have := (hlab i hiN).1
          omega
        have hl2 : (labels.getD i 0).toNat < L := by
          have := (hlab i hiN).2
          omega
        have hgl : ∀ g : ℕ, (labels.getD i 0 = (g : Int)) ↔
            ((labels.getD i 0).toNat = g) := by
          intro g
          omega
        cases hv : values.getD i none with
        | some v =>
            rw [group_add_mean_step_some values labels st i hneg hv]
            refine ⟨by simpa using hc, by simpa using hn,
              by simpa using hs, fun g hg => ?_, fun g hg => ?_⟩
            · by_cases hcase : (labels.getD i 0).toNat = g
              · subst hcase
                rw [getD_set_self _ _ _ _ (by omega),
                  hcg _ hl1, grpPosK_succ, if_pos ((hgl _).mpr rfl)]
                simp only [List.length_append, List.length_singleton]
                push_cast
                ring
              · rw [getD_set_ne _ _ _ hcase, hcg g hg, grpPosK_succ,
                  if_neg (fun hx2 => hcase ((hgl g).mp hx2))]
                simp
            · obtain ⟨h1, h2⟩ := hvg g hg
              by_cases hcase : (labels.getD i 0).toNat = g
              · subst hcase
                rw [getD_set_self _ _ _ _ (by omega),
                  getD_set_self _ _ _ _ (by omega),
                  h1, h2, grpValsK_succ, if_pos ((hgl _).mpr rfl), hv]
                refine ⟨?_, ?_⟩ <;> simp <;> push_cast <;> ring
              · rw [getD_set_ne _ _ _ hcase, getD_set_ne _ _ _ hcase,
                  h1, h2, grpValsK_succ,
                  if_neg (fun hx2 => hcase ((hgl g).mp hx2))]
                simp
        | none =>
            rw [group_add_mean_step_nan values labels st i hneg hv]
            refine ⟨by simpa using hc, hn, hs,
              fun g hg => ?_, fun g hg => ?_⟩
            · by_cases hcase : (labels.getD i 0).toNat = g
              · subst hcase
                rw [getD_set_self _ _ _ _ (by omega),
                  hcg _ hl1, grpPosK_succ, if_pos ((hgl _).mpr rfl)]
                simp only [List.length_append, List.length_singleton]
                push_cast
                ring
              · rw [getD_set_ne _ _ _ hcase, hcg g hg, grpPosK_succ,
                  if_neg (fun hx2 => hcase ((hgl g).mp hx2))]
                simp
            · obtain ⟨h1, h2⟩ := hvg g hg
              rw [h1, h2]
              by_cases hcase : (labels.getD i 0).toNat = g
              · subst hcase
                rw [grpValsK_succ, if_pos ((hgl _).mpr rfl), hv]
                simp
              · rw [grpValsK_succ,
                  if_neg (fun hx2 => hcase ((hgl g).mp hx2))]
                simp)
  simp only [Nat.zero_add] at hmain
  exact ⟨hmain.1, fun g hg => hmain.2.2.2.1 g hg,
    fun g hg => hmain.2.2.2.2 g hg⟩

/-- An element whose label is negative is skipped entirely: its value
can be replaced arbitrarily without changing the `group_var` pass. -/
theorem group_var_pass_skip (counts : List Int) (nobs sumx sumxx : List ℚ)
    (values : List F) (labels : List Int) (i : ℕ) (w : F)
    (hneg : labels.getD i 0 < 0) :
    group_var_pass counts nobs sumx sumxx (values.set i w) labels =
      group_var_pass counts nobs sumx sumxx values labels := by
  unfold group_var_pass
  have hstep : group_var_step (values.set i w) labels =
      group_var_step values labels := by
    funext st j
    by_cases hj : j = i
    · subst hj
      rw [group_var_step_neg _ _ _ _ hneg,
        group_var_step_neg _ _ _ _ hneg]
    · unfold group_var_step
      rw [getD_set_ne _ _ _ (show i ≠ j from fun h => hj h.symm)]
  rw [hstep, List.length_set]

/-- Same skip property for the `group_add`/`group_mean` pass. -/
theorem group_add_mean_pass_skip (counts : List Int) (nobs sumx : List ℚ)
    (values : List F) (labels : List Int) (i : ℕ) (w : F)
    (hneg : labels.getD i 0 < 0) :
    group_add_mean_pass counts nobs sumx (values.set i w) labels =
      group_add_mean_pass counts nobs sumx values labels := by
  unfold group_add_mean_pass
  have hstep : group_add_mean_step (values.set i w) labels =
      group_add_mean_step values labels := by
    funext st j
    by_cases hj : j = i
    · subst hj
      rw [group_add_mean_step_neg _ _ _ _ hneg,
        group_add_mean_step_neg _ _ _ _ hneg]
    · unfold group_add_mean_step
      rw [getD_set_ne _ _ _ (show i ≠ j from fun h => hj h.symm)]
  rw [hstep, List.length_set]

/-- The finalisation loops write each slot of `out` once, in order. -/
theorem finalize_getD (f : ℕ → F) (out : List F) (m g : ℕ) (hg : g < m)
    (hgo : g < out.length) :
    ((List.range m).foldl (fun o i => o.set i (f i)) out).getD g none =
      f g := by
  rw [List.range_eq_range']
  have hmain := foldl_range'_inv (fun (o : List F) i => o.set i (f i))
    (fun k o => o.length = out.length ∧
      ∀ j, j < k → j < out.length → o.getD j none = f j)
    0 m out ⟨rfl, fun j hj _ => by omega⟩
    (fun i o hi hik hp => by
      obtain ⟨hlen, hprev⟩ := hp
      refine ⟨by simpa using hlen, fun j hj hjo => ?_⟩
      rcases Nat.lt_or_ge j i with hji | hji
      · rw [getD_set_ne _ _ _ (by omega)]
        exact hprev j hji hjo
      · have hjeq : j = i := by omega
        subst hjeq
        rw [getD_set_self _ _ _ _ (by omega)])
  simp only [Nat.zero_add] at hmain
  exact hmain.2 g hg hgo

/-- C5: in the aggregation pass shared by `group_add`, `group_mean` and
`group_var`, an element with a negative label is skipped entirely (its
value can be changed arbitrarily without affecting the pass); every
element with `labels[i] = g ≥ 0` increments `counts[g]` even when its
value is NaN; and NaN values are excluded from the
non-missing-observation counts and from the sum accumulators. -/
theorem claim_C5 (out : List F) (counts : List Int) (values : List F)
    (labels : List Int)
    (hlab : ∀ i, i < values.length →
      labels.getD i 0 < (counts.length : Int) ∧
        labels.getD i 0 < (out.length : Int)) :
    (∀ i w, labels.getD i 0 < 0 →
      group_var_pass counts (List.replicate out.length 0)
          (List.replicate out.length 0) (List.replicate out.length 0)
          (values.set i w) labels =
        group_var_pass counts (List.replicate out.length 0)
          (List.replicate out.length 0) (List.replicate out.length 0)
          values labels ∧
      group_add_mean_pass counts (List.replicate out.length 0)
          (List.replicate out.length 0) (values.set i w) labels =
        group_add_mean_pass counts (List.replicate out.length 0)
          (List.replicate out.length 0) values labels) ∧
    (∀ g, g < counts.length →
      (group_add out counts values labels).2.getD g 0 =
          counts.getD g 0 + (grpAll values labels g : Int) ∧
      (group_mean out counts values labels).2.getD g 0 =
          counts.getD g 0 + (grpAll values labels g : Int) ∧
      (group_var out counts values labels).2.getD g 0 =
          counts.getD g 0 + (grpAll values labels g : Int)) ∧
    (∀ g, g < out.length →
      (group_var_pass counts (List.replicate out.length 0)
          (List.replicate out.length 0) (List.replicate out.length 0)
          values labels).2.1.getD g 0 = (grpNobs values labels g : ℚ) ∧
      (group_var_pass counts (List.replicate out.length 0)
          (List.replicate out.length 0) (List.replicate out.length 0)
          values labels).2.2.1.getD g 0 = grpSum values labels g ∧
      (group_add_mean_pass counts (List.replicate out.length 0)
          (List.replicate out.length 0) values labels).2.1.getD g 0 =
        (grpNobs values labels g : ℚ) ∧
      (group_add_mean_pass counts (List.replicate out.length 0)
          (List.replicate out.length 0) values labels).2.2.getD g 0 =
        grpSum values labels g) := by
  have hvar := group_var_pass_spec counts out.length values labels hlab
  have ham := group_add_mean_pass_spec counts out.length values labels hlab
  refine ⟨fun i w hneg =>
      ⟨group_var_pass_skip counts _ _ _ values labels i w hneg,
        group_add_mean_pass_skip counts _ _ values labels i w hneg⟩,
    fun g hg => ?_, fun g hg =>
      ⟨(hvar.2.2 g hg).1, (hvar.2.2 g hg).2.1,
        (ham.2.2 g hg).1, (ham.2.2 g hg).2⟩⟩
  refine ⟨?_, ?_, ?_⟩
  · show (group_add_mean_pass counts (List.replicate out.length 0)
      (List.replicate out.length 0) values labels).1.getD g 0 = _
    exact ham.2.1 g hg
  · show (group_add_mean_pass counts (List.replicate out.length 0)
      (List.replicate out.length 0) values labels).1.getD g 0 = _
    exact ham.2.1 g hg
  · show (group_var_pass counts (List.replicate out.length 0)
      (List.replicate out.length 0) (List.replicate out.length 0)
      values labels).1.getD g 0 = _
    exact hvar.2.1 g hg

/-- Witness for C5 at a concrete input. -/
theorem claim_C5_witness :
    (group_add [none, none] [0, 0]
        [some 1, none, some 2, some 5] [0, 0, -1, 1]).2.getD 0 0 =
      (0 : Int) + (grpAll [some 1, none, some 2, some 5] [0, 0, -1, 1]
        0 : Int) :=
  ((claim_C5 [none, none] [0, 0] [some 1, none, some 2, some 5]
    [0, 0, -1, 1] (by decide)).2.1 0 (by decide)).1

/-- C6: `group_var` finalises each group as NaN when it has fewer than
two non-missing observations and otherwise as
`(n·Sxx − Sx²)/(n² − n)`; `group_mean` yields NaN exactly when a group
has zero non-missing observations; and for the single-group values
`[2, 4, 4, 4, 5, 5, 7, 9]` the computed variance is exactly `32/7`. -/
theorem claim_C6 (out : List F) (counts : List Int) (values : List F)
    (labels : List Int)
    (hlab : ∀ i, i < values.length →
      labels.getD i 0 < (counts.length : Int) ∧
        labels.getD i 0 < (out.length : Int)) :
    (∀ g, g < counts.length → g < out.length →
      (group_var out counts values labels).1.getD g none =
        if (grpNobs values labels g : ℚ) < 2 then none
        else some (((grpNobs values labels g : ℚ) *
              grpSumSq values labels g -
            grpSum values labels g * grpSum values labels g) /
          ((grpNobs values labels g : ℚ) * (grpNobs values labels g : ℚ) -
            (grpNobs values labels g : ℚ)))) ∧
    (∀ g, g < counts.length → g < out.length →
      ((group_mean out counts values labels).1.getD g none = none ↔
        grpNobs values labels g = 0)) ∧
    group_var [none] [0]
        [some 2, some 4, some 4, some 4, some 5, some 5, some 7, some 9]
        [0, 0, 0, 0, 0, 0, 0, 0] =
      ([some (32 / 7)], [8]) := by
  have hvar := group_var_pass_spec counts out.length values labels hlab
  have ham := group_add_mean_pass_spec counts out.length values labels hlab
  refine ⟨fun g hg hgo => ?_, fun g hg hgo => ?_, by decide⟩
  · have hdef : (group_var out counts values labels).1 =
        (List.range counts.length).foldl
          (fun o i => o.set i
            (if (group_var_pass counts (List.replicate out.length 0)
        (List.replicate out.length 0) (List.replicate out.length 0)
        values labels).2.1.getD i 0 < 2 then none
            else some (((group_var_pass counts (List.replicate out.length 0)
        (List.replicate out.length 0) (List.replicate out.length 0)
        values labels).2.1.getD i 0 * (group_var_pass counts (List.replicate out.length 0)
        (List.replicate out.length 0) (List.replicate out.length 0)
        values labels).2.2.2.getD i 0 -
                (group_var_pass counts (List.replicate out.length 0)
        (List.replicate out.length 0) (List.replicate out.length 0)
        values labels).2.2.1.getD i 0 * (group_var_pass counts (List.replicate out.length 0)
        (List.replicate out.length 0) (List.replicate out.length 0)
        values labels).2.2.1.getD i 0) /
              ((group_var_pass counts (List.replicate out.length 0)
        (List.replicate out.length 0) (List.replicate out.length 0)
        values labels).2.1.getD i 0 * (group_var_pass counts (List.replicate out.length 0)
        (List.replicate out.length 0) (List.replicate out.length 0)
        values labels).2.1.getD i 0 -
                (group_var_pass counts (List.replicate out.length 0)
        (List.replicate out.length 0) (List.replicate out.length 0)
        values labels).2.1.getD i 0)))) out := rfl
    rw [hdef, finalize_getD _ out counts.length g hg hgo]
    rw [(hvar.2.2 g hgo).1, (hvar.2.2 g hgo).2.1, (hvar.2.2 g hgo).2.2]
  · have hdef : (group_mean out counts values labels).1 =
        (List.range counts.length).foldl
          (fun o i => o.set i
            (if (group_add_mean_pass counts (List.replicate out.length 0)
        (List.replicate out.length 0) values labels).2.1.getD i 0 = 0 then none
            else some ((group_add_mean_pass counts (List.replicate out.length 0)
        (List.replicate out.length 0) values labels).2.2.getD i 0 / (group_add_mean_pass counts (List.replicate out.length 0)
        (List.replicate out.length 0) values labels).2.1.getD i 0))) out := rfl
    rw [hdef, finalize_getD _ out counts.length g hg hgo]
    rw [(ham.2.2 g hgo).1]
    by_cases hz : grpNobs values labels g = 0
    · simp [hz]
    · rw [if_neg (by exact_mod_cast hz)]
      simp [hz]

/-- Witness for C6 at a concrete input. -/
theorem claim_C6_witness :
    (group_var [none] [0]
        [some 2, some 4, some 4, some 4, some 5, some 5, some 7, some 9]
        [0, 0, 0, 0, 0, 0, 0, 0]).1.getD 0 none =
      if (grpNobs
          [some 2, some 4, some 4, some 4, some 5, some 5, some 7, some 9]
          [0, 0, 0, 0, 0, 0, 0, 0] 0 : ℚ) < 2 then none
      else some (((grpNobs
            [some 2, some 4, some 4, some 4, some 5, some 5, some 7, some 9]
            [0, 0, 0, 0, 0, 0, 0, 0] 0 : ℚ) *
          grpSumSq
            [some 2, some 4, some 4, some 4, some 5, some 5, some 7, some 9]
            [0, 0, 0, 0, 0, 0, 0, 0] 0 -
          grpSum
            [some 2, some 4, some 4, some 4, some 5, some 5, some 7, some 9]
            [0, 0, 0, 0, 0, 0, 0, 0] 0 *
          grpSum
            [some 2, some 4, some 4, some 4, some 5, some 5, some 7, some 9]
            [0, 0, 0, 0, 0, 0, 0, 0] 0) /
        ((grpNobs
            [some 2, some 4, some 4, some 4, some 5, some 5, some 7, some 9]
            [0, 0, 0, 0, 0, 0, 0, 0] 0 : ℚ) *
          (grpNobs
            [some 2, some 4, some 4, some 4, some 5, some 5, some 7, some 9]
            [0, 0, 0, 0, 0, 0, 0, 0] 0 : ℚ) -
          (grpNobs
            [some 2, some 4, some 4, some 4, some 5, some 5, some 7, some 9]
            [0, 0, 0, 0, 0, 0, 0, 0] 0 : ℚ))) :=
  (claim_C6 [none] [0]
    [some 2, some 4, some 4, some 4, some 5, some 5, some 7, some 9]
    [0, 0, 0, 0, 0, 0, 0, 0] (by decide)).1 0 (by decide) (by decide)

/-! ### `group_labels` (groupby module)

```
def group_labels(ndarray[object] values):
    for i from 0 <= i < n:
        val = values[i]
        if val != val:           # is NaN
            labels[i] = -1
            continue
        if val in ids:
            idx = ids[val]
            labels[i] = idx
            counts[idx] = counts[idx] + 1
        else:
            ids[val] = count
            reverse[count] = val
            labels[i] = count
            counts[count] = 1
            count += 1
    return reverse, labels, counts[:count].copy()
```

`ids` is a dict keyed on the (non-missing) objects; it is modelled as an
insertion-ordered association list.  `reverse` maps the labels
`0, 1, …, count-1` to keys in assignment order and is modelled as the
list of keys indexed by label.  `counts[:count]` is modelled as the list
of the written entries. -/

/-- Dict lookup of the `ids` association list (value equality). -/
def lookupId {α : Type} [DecidableEq α] : List (α × ℕ) → α → Option ℕ
  | [], _ => none
  | (k, v) :: rest, a => if k = a then some v else lookupId rest a

/-- State of the `group_labels` loop. -/
structure GLState (α : Type) where
  ids : List (α × ℕ)
  reverse : List α
  labels : List Int
  counts : List ℕ
  count : ℕ
  deriving DecidableEq

/-- One iteration of `group_labels`; the `none` argument is the
`val != val` (NaN) branch. -/
def group_labels_step {α : Type} [DecidableEq α] (st : GLState α) :
    PyObj α → GLState α
  | none => { st with labels := st.labels ++ [-1] }
  | some a =>
      match lookupId st.ids a with
      | some idx =>
          { st with
              labels := st.labels ++ [(idx : Int)],
              counts := st.counts.set idx (st.counts.getD idx 0 + 1) }
      | none =>
          { ids := st.ids ++ [(a, st.count)],
            reverse := st.reverse ++ [a],
            labels := st.labels ++ [(st.count : Int)],
            counts := st.counts ++ [1],
            count := st.count + 1 }

/-- `group_labels` from the groupby module, returning
`(reverse, labels, counts[:count])`. -/
def group_labels {α : Type} [DecidableEq α] (values : List (PyObj α)) :
    List α × List Int × List ℕ :=
  let st := values.foldl group_labels_step ⟨[], [], [], [], 0⟩
  (st.reverse, st.labels, st.counts)

/-- Reference: keys in first-appearance order. -/
def firstSeen {α : Type} [DecidableEq α] (l : List α) : List α :=
  l.foldl (fun acc a => if a ∈ acc then acc else acc ++ [a]) []

/-- Reference: the label `group_labels` gives to one value, relative to
a first-appearance list. -/
def glLabelOf {α : Type} [DecidableEq α] (fs : List α) :
    PyObj α → Int
  | none => -1
  | some a => (fs.indexOf a : Int)

theorem firstSeen_append_singleton {α : Type} [DecidableEq α]
    (l : List α) (a : α) :
    firstSeen (l ++ [a]) =
      if a ∈ firstSeen l then firstSeen l else firstSeen l ++ [a] := by
  unfold firstSeen
  rw [List.foldl_append]
  rfl

theorem mem_firstSeen {α : Type} [DecidableEq α] (l : List α) (a : α) :
    a ∈ firstSeen l ↔ a ∈ l := by
  induction l using List.reverseRecOn with
  | nil => simp [firstSeen]
  | append_singleton xs x ih =>
      rw [firstSeen_append_singleton]
      by_cases h : x ∈ firstSeen xs
      · rw [if_pos h]
        simp only [List.mem_append, List.mem_singleton]
        constructor
        · intro hm
          exact Or.inl (ih.mp hm)
        · rintro (hm | rfl)
          · exact ih.mpr hm
          · exact h
      · rw [if_neg h]
        simp only [List.mem_append, List.mem_singleton, ih]

theorem nodup_firstSeen {α : Type} [DecidableEq α] (l : List α) :
    (firstSeen l).Nodup := by
  induction l using List.reverseRecOn with
  | nil => simp [firstSeen]
  | append_singleton xs x ih =>
      rw [firstSeen_append_singleton]
      by_cases h : x ∈ firstSeen xs
      · rwa [if_pos h]
      · rw [if_neg h]
        exact List.Nodup.append ih (List.nodup_singleton x)
          (by simpa using h)

theorem lookupId_append {α : Type} [DecidableEq α]
    (l1 l2 : List (α × ℕ)) (b : α) :
    lookupId (l1 ++ l2) b =
      match lookupId l1 b with
      | some v => some v
      | none => lookupId l2 b := by
  induction l1 with
  | nil => rfl
  | cons p rest ih =>
      obtain ⟨k, v⟩ := p
      by_cases h : k = b <;> simp [lookupId, h, ih]

/-- Bumping the count of one key updates exactly its slot of the
per-key count table. -/
theorem map_count_set {α : Type} [DecidableEq α] (fs : List α)
    (hnd : fs.Nodup) (ks : List α) (a : α) (ha : a ∈ fs) :
    fs.map (fun b => (ks ++ [a]).count b) =
      (fs.map (fun b => ks.count b)).set (fs.indexOf a)
        (ks.count a + 1) := by
  have hidx : fs.indexOf a < fs.length := List.indexOf_lt_length.mpr ha
  apply List.ext_getElem (by simp)
  intro j h1 h2
  simp only [List.length_map] at h1 h2
  rw [List.getElem_map]
  rw [List.getElem_set]
  by_cases hj : fs.indexOf a = j
  · subst hj
    rw [if_pos rfl, List.getElem_indexOf hidx, List.count_append]
    simp
  · rw [if_neg hj, List.getElem_map, List.count_append]
    have hne : fs[j] ≠ a := by
      intro hcontra
      exact hj (by rw [← List.indexOf_getElem hnd j (by omega), hcontra])
    simp [List.count_singleton, hne]

/-- The full loop invariant of `group_labels`: after processing
`values`, `reverse` is the first-appearance list of the non-missing
keys, `ids` looks keys up at their first-appearance index, `count` is
the number of distinct keys, `counts` holds per-key occurrence counts
in label order, and every emitted label is `-1` for missing values and
the first-appearance index otherwise. -/
theorem group_labels_invariant {α : Type} [DecidableEq α]
    (values : List (PyObj α)) :
    (values.foldl group_labels_step
        (⟨[], [], [], [], 0⟩ : GLState α)).reverse =
      firstSeen (values.filterMap id) ∧
    (∀ a : α, lookupId (values.foldl group_labels_step
        (⟨[], [], [], [], 0⟩ : GLState α)).ids a =
      if a ∈ firstSeen (values.filterMap id) then
        some ((firstSeen (values.filterMap id)).indexOf a)
      else none) ∧
    (values.foldl group_labels_step
        (⟨[], [], [], [], 0⟩ : GLState α)).count =
      (firstSeen (values.filterMap id)).length ∧
    (values.foldl group_labels_step
        (⟨[], [], [], [], 0⟩ : GLState α)).counts =
      (firstSeen (values.filterMap id)).map
        (fun a => (values.filterMap id).count a) ∧
    (values.foldl group_labels_step
        (⟨[], [], [], [], 0⟩ : GLState α)).labels =
      values.map (glLabelOf (firstSeen (values.filterMap id))) := by
  induction values using List.reverseRecOn with
  | nil => exact ⟨rfl, fun a => rfl, rfl, rfl, rfl⟩
  | append_singleton vs v ih =>
      obtain ⟨ihrev, ihids, ihcount, ihcounts, ihlabels⟩ := ih
      rw [List.foldl_append] at *
      set st := vs.foldl group_labels_step
        (⟨[], [], [], [], 0⟩ : GLState α) with hst
      cases v with
      | none =>
          have hks : (vs ++ [(none : PyObj α)]).filterMap id =
              vs.filterMap id := by
            simp
          rw [List.foldl_cons, List.foldl_nil, hks]
          refine ⟨ihrev, ihids, ihcount, ihcounts, ?_⟩
          show (st.labels ++ [-1]) = _
          rw [List.map_append, ihlabels]
          rfl
      | some a =>
          have hks : (vs ++ [(some a : PyObj α)]).filterMap id =
              vs.filterMap id ++ [a] := by
            simp
          rw [List.foldl_cons, List.foldl_nil, hks]
          set ks := vs.filterMap id with hksdef
          set fs := firstSeen ks with hfs
          have hmemvs : ∀ b, some b ∈ vs → b ∈ fs := by
            intro b hb
            rw [hfs, mem_firstSeen]
            exact List.mem_filterMap.mpr ⟨some b, hb, rfl⟩
          by_cases ha : a ∈ fs
          · have hfs' : firstSeen (ks ++ [a]) = fs := by
              rw [firstSeen_append_singleton, if_pos ha]
            have hstep : group_labels_step st (some a) =
                { st with
                    labels := st.labels ++ [(fs.indexOf a : Int)],
                    counts := st.counts.set (fs.indexOf a)
                      (st.counts.getD (fs.indexOf a) 0 + 1) } := by
              show (match lookupId st.ids a with
                | some idx =>
                    { st with
                        labels := st.labels ++ [(idx : Int)],
                        counts := st.counts.set idx
                          (st.counts.getD idx 0 + 1) }
                | none =>
                    { ids := st.ids ++ [(a, st.count)],
                      reverse := st.reverse ++ [a],
                      labels := st.labels ++ [(st.count : Int)],
                      counts := st.counts ++ [1],
                      count := st.count + 1 }) = _
              rw [ihids a, if_pos ha]
            rw [hstep, hfs']
            have hidx : fs.indexOf a < fs.length :=
              List.indexOf_lt_length.mpr ha
            have hgetD : st.counts.getD (fs.indexOf a) 0 = ks.count a := by
              rw [ihcounts,
                List.getD_eq_getElem _ _ (by simpa using hidx),
                List.getElem_map, List.getElem_indexOf hidx]
            refine ⟨ihrev, ihids, ihcount, ?_, ?_⟩
            · show st.counts.set (fs.indexOf a)
                (st.counts.getD (fs.indexOf a) 0 + 1) = _
              rw [hgetD, ihcounts,
                map_count_set fs (hfs ▸ nodup_firstSeen ks) ks a ha]
            · show st.labels ++ [(fs.indexOf a : Int)] = _
              rw [List.map_append, ihlabels]
              rfl
          · have hfs' : firstSeen (ks ++ [a]) = fs ++ [a] := by
              rw [firstSeen_append_singleton, if_neg ha]
            have hanotks : a ∉ ks := fun h =>
              ha ((mem_firstSeen ks a).mpr h)
            have hstep : group_labels_step st (some a) =
                { ids := st.ids ++ [(a, st.count)],
                  reverse := st.reverse ++ [a],
                  labels := st.labels ++ [(st.count : Int)],
                  counts := st.counts ++ [1],
                  count := st.count + 1 } := by
              show (match lookupId st.ids a with
                | some idx =>
                    { st with
                        labels := st.labels ++ [(idx : Int)],
                        counts := st.counts.set idx
                          (st.counts.getD idx 0 + 1) }
                | none =>
                    { ids := st.ids ++ [(a, st.count)],
                      reverse := st.reverse ++ [a],
                      labels := st.labels ++ [(st.count : Int)],
                      counts := st.counts ++ [1],
                      count := st.count + 1 }) = _
              rw [ihids a, if_neg ha]
            rw [hstep, hfs']
            refine ⟨?_, ?_, ?_, ?_, ?_⟩
            · show st.reverse ++ [a] = fs ++ [a]
              rw [ihrev]
            · intro b
              show lookupId (st.ids ++ [(a, st.count)]) b = _
              rw [lookupId_append, ihids b]
              by_cases hb : b ∈ fs
              · rw [if_pos hb, if_pos (by simp [hb])]
                rw [List.indexOf_append_of_mem hb]
              · rw [if_neg hb]
                by_cases hab : a = b
                · subst hab
                  rw [if_pos (by simp)]
                  show (if a = a then some st.count else none) = _
                  rw [if_pos rfl, ihcount,
                    List.indexOf_append_of_not_mem hb]
                  simp [List.indexOf_cons_self]
                · rw [if_neg (by
                    simp only [List.mem_append, List.mem_singleton]
                    rintro (h | h)
                    · exact hb h
                    · exact hab h.symm)]
                  show (if a = b then some st.count else none) = _
                  rw [if_neg hab]
            · show st.count + 1 = (fs ++ [a]).length
              rw [ihcount]
              simp
            · show st.counts ++ [1] = _
              rw [ihcounts, List.map_append]
              congr 1
              · apply List.map_congr_left
                intro b hb
                have hba : b ≠ a := fun h => ha (h ▸ hb)
                rw [List.count_append]
                simp [List.count_singleton, hba]
              · simp only [List.map_cons, List.map_nil]
                rw [List.count_append]
                rw [List.count_eq_zero.mpr hanotks]
                simp
            · show st.labels ++ [(st.count : Int)] = _
              rw [List.map_append, ihlabels]
              congr 1
              · apply List.map_congr_left
                intro v' hv'
                cases v' with
                | none => rfl
                | some b =>
                    show ((fs.indexOf b : ℕ) : Int) = _
                    have hbfs : b ∈ fs := hmemvs b hv'
                    show ((fs.indexOf b : ℕ) : Int) =
                      (((fs ++ [a]).indexOf b : ℕ) : Int)
                    rw [List.indexOf_append_of_mem hbfs]
              · simp only [List.map_cons, List.map_nil]
                show [(st.count : Int)] = [glLabelOf (fs ++ [a]) (some a)]
                rw [ihcount]
                show _ = [((fs ++ [a]).indexOf a : Int)]
                rw [List.indexOf_append_of_not_mem ha]
                simp [List.indexOf_cons_self]

/-! ### `PyObjectHashTable.factorize` (`sandbox.pyx`)

The khash C implementation is not part of the excerpt; following the
spec (§4.1) the table is modelled by its observable contract: an
insertion-ordered collection of `(key, payload)` slots, `kh_get` probing
by the runtime's value equality (`pyEq`, under which a NaN-like object
matches nothing) and returning the stored payload or a not-found
sentinel, `kh_put` appending a fresh slot when no equal key exists.
Note the `factorize` loop (sandbox.pyx:546-576) has **no** missing-value
check, unlike `group_labels`. -/

/-- Modelled from the spec: `kh_get_pymap` — probe for an equal key,
returning its payload, `none` standing for the `n_buckets` not-found
sentinel (§4.1). -/
def kh_get_pymap {α : Type} [DecidableEq α] :
    List (PyObj α × Int) → PyObj α → Option Int
  | [], _ => none
  | (k, v) :: rest, key =>
      if pyEq k key then some v else kh_get_pymap rest key

/-- State of the `PyObjectHashTable.factorize` loop. -/
structure PFState (α : Type) where
  table : List (PyObj α × Int)
  reverse : List (PyObj α)
  labels : List Int
  counts : List ℕ
  count : Int
  deriving DecidableEq

/-- One iteration of `PyObjectHashTable.factorize`: probe, reuse the
stored label on a hit, otherwise `kh_put` the key with the next label.
There is no missing-value test. -/
def pyFactorize_step {α : Type} [DecidableEq α] (st : PFState α)
    (val : PyObj α) : PFState α :=
  match kh_get_pymap st.table val with
  | some idx =>
      { st with
          labels := st.labels ++ [idx],
          counts := st.counts.set idx.toNat
            (st.counts.getD idx.toNat 0 + 1) }
  | none =>
      { table := st.table ++ [(val, st.count)],
        reverse := st.reverse ++ [val],
        labels := st.labels ++ [st.count],
        counts := st.counts ++ [1],
        count := st.count + 1 }

/-- `PyObjectHashTable.factorize` run on a table (fresh per the
Factorizer lifecycle, §3). -/
def pyObjectHashTable_factorize {α : Type} [DecidableEq α]
    (table : List (PyObj α × Int)) (values : List (PyObj α)) :
    PFState α :=
  values.foldl pyFactorize_step ⟨table, [], [], [], 0⟩

theorem kh_get_pymap_mem {α : Type} [DecidableEq α]
    {t : List (PyObj α × Int)} {key : PyObj α} {v : Int}
    (h : kh_get_pymap t key = some v) : ∃ k, (k, v) ∈ t := by
  induction t with
  | nil => exact absurd h (by simp [kh_get_pymap])
  | cons p rest ih =>
      obtain ⟨k, w⟩ := p
      by_cases hk : pyEq k key
      · rw [kh_get_pymap, if_pos hk] at h
        exact ⟨k, by simp [Option.some.inj h]⟩
      · rw [kh_get_pymap, if_neg hk] at h
        obtain ⟨k', hk'⟩ := ih h
        exact ⟨k', List.mem_cons_of_mem _ hk'⟩

/-- Every label `factorize` ever writes is a stored or fresh count,
hence non-negative: `-1` is never produced. -/
theorem pyFactorize_labels_nonneg {α : Type} [DecidableEq α]
    (values : List (PyObj α)) (st : PFState α)
    (ht : ∀ p ∈ st.table, 0 ≤ p.2) (hc : 0 ≤ st.count)
    (hl : ∀ l ∈ st.labels, 0 ≤ l) :
    ∀ l ∈ (values.foldl pyFactorize_step st).labels, 0 ≤ l := by
  induction values generalizing st with
  | nil => exact hl
  | cons v rest ih =>
      rw [List.foldl_cons]
      cases hget : kh_get_pymap st.table v with
      | some idx =>
          have hstep : pyFactorize_step st v =
              { st with
                  labels := st.labels ++ [idx],
                  counts := st.counts.set idx.toNat
                    (st.counts.getD idx.toNat 0 + 1) } := by
            unfold pyFactorize_step
            rw [hget]
          rw [hstep]
          refine ih _ ht hc fun l hlmem => ?_
          rcases List.mem_append.mp hlmem with h | h
          · exact hl l h
          · obtain ⟨k, hk⟩ := kh_get_pymap_mem hget
            rw [List.mem_singleton.mp h]
            exact ht (k, idx) hk
      | none =>
          have hstep : pyFactorize_step st v =
              { table := st.table ++ [(v, st.count)],
                reverse := st.reverse ++ [v],
                labels := st.labels ++ [st.count],
                counts := st.counts ++ [1],
                count := st.count + 1 } := by
            unfold pyFactorize_step
            rw [hget]
          rw [hstep]
          refine ih _ (fun p hp => ?_)
            (by show 0 ≤ st.count + 1; omega) (fun l hlmem => ?_)
          · rcases List.mem_append.mp hp with h | h
            · exact ht p h
            · rw [List.mem_singleton.mp h]
              exact hc
          · rcases List.mem_append.mp hlmem with h | h
            · exact hl l h
            · rw [List.mem_singleton.mp h]
              exact hc

/-- C1 counterexample: the claim asserts the hash-table factorize
methods label a missing key `-1`, but `PyObjectHashTable.factorize`
has no missing-value check: on the one-element input `[NaN]` it assigns
the ordinary fresh label `0`. -/
theorem claim_C1_counterexample :
    isMissing (([none] : List (PyObj Unit)).getD 0 (some ())) = true ∧
    (pyObjectHashTable_factorize ([] : List (PyObj Unit × Int))
        [none]).labels = [0] ∧
    ((0 : Int) ≠ -1) := by
  decide

/-- A prefix of the scanned keys contributes a prefix of the
first-appearance list. -/
theorem firstSeen_extends {α : Type} [DecidableEq α] (l1 l2 : List α) :
    firstSeen l1 <+: firstSeen (l1 ++ l2) := by
  induction l2 using List.reverseRecOn with
  | nil => simp
  | append_singleton xs x ih =>
      rw [← List.append_assoc, firstSeen_append_singleton]
      by_cases h : x ∈ firstSeen (l1 ++ xs)
      · rwa [if_pos h]
      · rw [if_neg h]
        exact ih.trans (List.prefix_append _ _)

theorem indexOf_of_extends {α : Type} [DecidableEq α] {p l : List α}
    (hp : p <+: l) {a : α} (ha : a ∈ p) :
    l.indexOf a = p.indexOf a := by
  obtain ⟨t, rfl⟩ := hp
  exact List.indexOf_append_of_mem ha

theorem glLabel_at {α : Type} [DecidableEq α] (values : List (PyObj α))
    (i : ℕ) (hi : i < values.length) :
    (group_labels values).2.1.getD i 0 =
      glLabelOf (firstSeen (values.filterMap id)) values[i] := by
  have hlab := (group_labels_invariant values).2.2.2.2
  show (values.foldl group_labels_step
    (⟨[], [], [], [], 0⟩ : GLState α)).labels.getD i 0 = _
  rw [hlab, List.getD_eq_getElem _ _ (by simpa using hi),
    List.getElem_map]

theorem glLabel_firstOcc {α : Type} [DecidableEq α]
    (values : List (PyObj α)) (i : ℕ) (hi : i < values.length) (a : α)
    (hvi : values[i] = some a)
    (hfirst : ∀ j, ∀ hj : j < i, values[j] ≠ some a) :
    (firstSeen (values.filterMap id)).indexOf a =
      (firstSeen ((values.take i).filterMap id)).length := by
  have hanot : a ∉ (values.take i).filterMap id := by
    intro hmem
    obtain ⟨x, hx, hxa⟩ := List.mem_filterMap.mp hmem
    obtain ⟨m, hm, hmx⟩ := List.mem_take_iff_getElem.mp hx
    have hmi : m < i := (Nat.lt_min.mp hm).1
    exact hfirst m hmi (by rw [hmx]; exact hxa)
  have hanotf : a ∉ firstSeen ((values.take i).filterMap id) :=
    fun h => hanot ((mem_firstSeen _ a).mp h)
  have hks1 : (values.take (i + 1)).filterMap id =
      (values.take i).filterMap id ++ [a] := by
    rw [List.take_succ, List.getElem?_eq_getElem hi, hvi]
    simp
  have hsplit : values.filterMap id =
      (values.take (i + 1)).filterMap id ++
        (values.drop (i + 1)).filterMap id := by
    rw [← List.filterMap_append, List.take_append_drop]
  have hprefix1 : firstSeen ((values.take (i + 1)).filterMap id) <+:
      firstSeen (values.filterMap id) := by
    rw [hsplit]
    exact firstSeen_extends _ _
  have hmem1 : a ∈ firstSeen ((values.take (i + 1)).filterMap id) := by
    rw [mem_firstSeen, hks1]
    simp
  rw [indexOf_of_extends hprefix1 hmem1, hks1,
    firstSeen_append_singleton, if_neg hanotf,
    List.indexOf_append_of_not_mem hanotf]
  simp

theorem firstSeen_take_le {α : Type} [DecidableEq α]
    (values : List (PyObj α)) (i j : ℕ) (hij : i + 1 ≤ j) :
    (firstSeen ((values.take (i + 1)).filterMap id)).length ≤
      (firstSeen ((values.take j).filterMap id)).length := by
  have key := firstSeen_extends ((values.take (i + 1)).filterMap id)
    (((values.drop (i + 1)).take (j - (i + 1))).filterMap id)
  have hch : (values.take (i + 1)).filterMap id ++
      ((values.drop (i + 1)).take (j - (i + 1))).filterMap id =
      (values.take j).filterMap id := by
    rw [← List.filterMap_append, ← List.take_add]
    have hidx : (i + 1) + (j - (i + 1)) = j := by omega
    rw [hidx]
  rw [hch] at key
  exact key.length_le

/-- C1 (amended): `group_labels` satisfies the claim in full —
`labels[i] = -1` exactly for missing values, `reverse[labels[i]]`
recovers every non-missing key, and a first occurrence receives the
next label (the count of distinct keys seen so far), so
first-occurrence labels strictly increase.  The hash-table
`factorize` methods, however, perform no missing-value check: every
label they assign, a missing key's included, is `≥ 0`, never `-1`. -/
theorem claim_C1 {α : Type} [DecidableEq α] (values : List (PyObj α)) :
    (∀ i, ∀ hi : i < values.length,
      ((group_labels values).2.1.getD i 0 = -1 ↔ values[i] = none) ∧
      (∀ a : α, values[i] = some a →
        (group_labels values).1[((group_labels values).2.1.getD i
          0).toNat]? = some a) ∧
      (∀ a : α, values[i] = some a →
        (∀ j, ∀ hj : j < i, values[j] ≠ some a) →
        (group_labels values).2.1.getD i 0 =
          ((firstSeen ((values.take i).filterMap id)).length : Int))) ∧
    (∀ i j, ∀ hi : i < values.length, ∀ hj : j < values.length, i < j →
      (∃ a : α, values[i] = some a ∧
        ∀ k, ∀ hk : k < i, values[k] ≠ some a) →
      (∃ b : α, values[j] = some b ∧
        ∀ k, ∀ hk : k < j, values[k] ≠ some b) →
      (group_labels values).2.1.getD i 0 <
        (group_labels values).2.1.getD j 0) ∧
    (∀ (ws : List (PyObj α)) (i : ℕ),
      0 ≤ (pyObjectHashTable_factorize ([] : List (PyObj α × Int))
        ws).labels.getD i 0) := by
  have hinv := group_labels_invariant values
  refine ⟨fun i hi => ⟨?_, ?_, ?_⟩, fun i j hi hj hij hfi hfj => ?_,
    fun ws i => ?_⟩
  · rw [glLabel_at values i hi]
    cases hv : values[i] with
    | none => simp [glLabelOf]
    | some a =>
        simp only [glLabelOf]
        constructor
        · intro h
          omega
        · intro h
          exact absurd h (by simp)
  · intro a hva
    rw [glLabel_at values i hi, hva]
    show (group_labels values).1[((firstSeen (values.filterMap
      id)).indexOf a : Int).toNat]? = some a
    have hrev : (group_labels values).1 =
        firstSeen (values.filterMap id) := hinv.1
    have hmem : a ∈ firstSeen (values.filterMap id) := by
      rw [mem_firstSeen]
      exact List.mem_filterMap.mpr ⟨some a, by
        rw [← hva]
        exact List.getElem_mem hi, rfl⟩
    have hidx : (firstSeen (values.filterMap id)).indexOf a <
        (firstSeen (values.filterMap id)).length :=
      List.indexOf_lt_length.mpr hmem
    rw [hrev, Int.toNat_natCast,
      List.getElem?_eq_getElem hidx, List.getElem_indexOf hidx]
  · intro a hva hfirst
    rw [glLabel_at values i hi, hva]
    show ((firstSeen (values.filterMap id)).indexOf a : Int) = _
    rw [glLabel_firstOcc values i hi a hva hfirst]
  · obtain ⟨a, hva, hfa⟩ := hfi
    obtain ⟨b, hvb, hfb⟩ := hfj
    rw [glLabel_at values i hi, glLabel_at values j hj, hva, hvb]
    show ((firstSeen (values.filterMap id)).indexOf a : Int) <
      ((firstSeen (values.filterMap id)).indexOf b : Int)
    rw [glLabel_firstOcc values i hi a hva hfa,
      glLabel_firstOcc values j hj b hvb hfb]
    have h1 : (firstSeen ((values.take (i + 1)).filterMap id)).length =
        (firstSeen ((values.take i).filterMap id)).length + 1 := by
      have hanot : a ∉ firstSeen ((values.take i).filterMap id) := by
        rw [mem_firstSeen]
        intro hmem
        obtain ⟨x, hx, hxa⟩ := List.mem_filterMap.mp hmem
        obtain ⟨m, hm, hmx⟩ := List.mem_take_iff_getElem.mp hx
        exact hfa m (Nat.lt_min.mp hm).1 (by rw [hmx]; exact hxa)
      rw [List.take_succ, List.getElem?_eq_getElem hi, hva]
      simp only [List.filterMap_append, Option.toList_some]
      rw [show List.filterMap id [(some a : PyObj α)] = [a] from rfl,
        firstSeen_append_singleton, if_neg hanot]
      simp
    have h2 := firstSeen_take_le values i j hij
    omega
  · rcases Nat.lt_or_ge i ((pyObjectHashTable_factorize
      ([] : List (PyObj α × Int)) ws).labels.length) with hlt | hge
    · rw [List.getD_eq_getElem _ _ hlt]
      exact pyFactorize_labels_nonneg ws _ (by simp) le_rfl (by simp) _
        (List.getElem_mem hlt)
    · rw [List.getD_eq_default _ _ hge]

/-- Witness for C1 at concrete inputs. -/
theorem claim_C1_witness :
    (((group_labels ([some 5, none, some 7] :
        List (PyObj ℕ))).2.1.getD 1 0 = -1) ↔
      ([some 5, none, some 7] : List (PyObj ℕ))[1] = none) ∧
    0 ≤ (pyObjectHashTable_factorize ([] : List (PyObj ℕ × Int))
      [none, some 3]).labels.getD 0 0 :=
  ⟨((claim_C1 ([some 5, none, some 7] : List (PyObj ℕ))).1 1
      (by decide)).1,
    (claim_C1 ([some 5, none, some 7] : List (PyObj ℕ))).2.2
      [none, some 3] 0⟩

/-- C7: after `group_labels`, `counts` has exactly one entry per
distinct non-missing key (in label order, no duplicates), each entry is
the number of occurrences of its key, and the entries sum to the number
of non-missing input elements. -/
theorem claim_C7 {α : Type} [DecidableEq α] (values : List (PyObj α)) :
    (group_labels values).2.2.length = (group_labels values).1.length ∧
    (group_labels values).1.Nodup ∧
    (∀ (g : ℕ) (a : α), (group_labels values).1[g]? = some a →
      (group_labels values).2.2[g]? =
        some ((values.filterMap id).count a)) ∧
    (group_labels values).2.2.sum = (values.filterMap id).length := by
  have hinv := group_labels_invariant values
  have hrev : (group_labels values).1 =
      firstSeen (values.filterMap id) := hinv.1
  have hcounts : (group_labels values).2.2 =
      (firstSeen (values.filterMap id)).map
        (fun a => (values.filterMap id).count a) := hinv.2.2.2.1
  refine ⟨by rw [hrev, hcounts, List.length_map],
    by rw [hrev]; exact nodup_firstSeen _, fun g a hga => ?_, ?_⟩
  · rw [hrev] at hga
    have hg : g < (firstSeen (values.filterMap id)).length := by
      by_contra hge
      rw [List.getElem?_eq_none (by omega)] at hga
      exact Option.noConfusion hga
    rw [List.getElem?_eq_getElem hg] at hga
    rw [hcounts, List.getElem?_eq_getElem (by simpa using hg),
      List.getElem_map, Option.some.inj hga]
  · rw [hcounts]
    have hperm : List.Perm (firstSeen (values.filterMap id))
        ((values.filterMap id).dedup) := by
      rw [List.perm_ext_iff_of_nodup (nodup_firstSeen _)
        (List.nodup_dedup _)]
      intro a
      rw [mem_firstSeen, List.mem_dedup]
    rw [List.Perm.sum_eq (hperm.map _)]
    exact List.sum_map_count_dedup_eq_length _

/-- Witness for C7 at a concrete input. -/
theorem claim_C7_witness :
    (group_labels ([some 5, some 7, none, some 5] :
        List (PyObj ℕ))).2.2[0]? =
      some ((([some 5, some 7, none, some 5] :
        List (PyObj ℕ)).filterMap id).count 5) :=
  (claim_C7 ([some 5, some 7, none, some 5] :
    List (PyObj ℕ))).2.2.1 0 5 (by decide)

/-! ### `PyObjectHashTable.get_item` / `lookup_locations`
(`sandbox.pyx`)

Both methods only call the (spec-modelled) probe `kh_get_pymap`; they
are modelled as state functions returning the table alongside the
result, so that the no-mutation guarantee is part of the statement. -/

/-- `get_item`: strict accessor — stored payload on a hit, a raised
`KeyError` on a miss. -/
def pyObjectHashTable_get_item {α : Type} [DecidableEq α]
    (table : List (PyObj α × Int)) (val : PyObj α) :
    Except String Int × List (PyObj α × Int) :=
  match kh_get_pymap table val with
  | some payload => (Except.ok payload, table)
  | none => (Except.error "KeyError", table)

/-- `lookup_locations`: sentinel-returning bulk probe — stored payload
on a hit, `-1` on a miss, never raising. -/
def pyObjectHashTable_lookup_locations {α : Type} [DecidableEq α]
    (table : List (PyObj α × Int)) (values : List (PyObj α)) :
    List Int × List (PyObj α × Int) :=
  (values.map (fun val =>
    match kh_get_pymap table val with
    | some payload => payload
    | none => -1), table)

/-- C8: `get_item` raises `KeyError` exactly on absent keys and returns
the stored payload on present ones; `lookup_locations` maps every
absent key to `-1` and every present key to its payload without
raising; neither lookup changes the table. -/
theorem claim_C8 {α : Type} [DecidableEq α]
    (table : List (PyObj α × Int)) (val : PyObj α)
    (values : List (PyObj α)) :
    (kh_get_pymap table val = none →
      pyObjectHashTable_get_item table val =
        (Except.error "KeyError", table)) ∧
    (∀ p : Int, kh_get_pymap table val = some p →
      pyObjectHashTable_get_item table val = (Except.ok p, table)) ∧
    (pyObjectHashTable_get_item table val).2 = table ∧
    (pyObjectHashTable_lookup_locations table values).2 = table ∧
    (pyObjectHashTable_lookup_locations table values).1.length =
      values.length ∧
    (∀ i, ∀ hi : i < values.length,
      (kh_get_pymap table values[i] = none →
        (pyObjectHashTable_lookup_locations table values).1.getD i 0 =
          -1) ∧
      (∀ p : Int, kh_get_pymap table values[i] = some p →
        (pyObjectHashTable_lookup_locations table values).1.getD i 0 =
          p)) := by
  refine ⟨fun h => ?_, fun p h => ?_, ?_, rfl, by
    show (values.map _).length = values.length
    rw [List.length_map], fun i hi => ⟨fun h => ?_, fun p h => ?_⟩⟩
  · unfold pyObjectHashTable_get_item
    rw [h]
  · unfold pyObjectHashTable_get_item
    rw [h]
  · unfold pyObjectHashTable_get_item
    cases kh_get_pymap table val <;> rfl
  · show (values.map _).getD i 0 = -1
    rw [List.getD_eq_getElem _ _ (by simpa using hi), List.getElem_map,
      h]
  · show (values.map _).getD i 0 = p
    rw [List.getD_eq_getElem _ _ (by simpa using hi), List.getElem_map,
      h]

/-- Witness for C8 at a concrete table. -/
theorem claim_C8_witness :
    pyObjectHashTable_get_item [((some 1 : PyObj ℕ), (10 : Int))]
        (some 2) = (Except.error "KeyError",
          [((some 1 : PyObj ℕ), (10 : Int))]) ∧
    (pyObjectHashTable_lookup_locations
        [((some 1 : PyObj ℕ), (10 : Int))]
        [some 1, some 2]).1.getD 1 0 = -1 :=
  ⟨(claim_C8 [((some 1 : PyObj ℕ), (10 : Int))] (some 2) []).1
      (by decide),
    ((claim_C8 [((some 1 : PyObj ℕ), (10 : Int))] (some 2)
      [some 1, some 2]).2.2.2.2.2 1 (by decide)).1 (by decide)⟩

end PandasSandbox
